import Mathlib

/-!
Formal model of the netboxes browser-dev-env core: the virtual file system
(`src/core/FileSystem.ts`) and the process manager (`src/core/ProcessManager.ts`).

The file system is a flat key store (IndexedDB object store keyed by `path`)
with POSIX-like path semantics layered on top.  We embed the store as an
association list of entries keyed by their `path` field, and each TypeScript
method as a pure Lean function; `Date.now()` becomes an explicit clock
argument, and the mitt event emitter becomes an explicit list of emitted
events returned by each mutating operation.
-/

/-- The `type` field of a stored entry (`'file' | 'directory'`). -/
inductive EntryType
  | file
  | directory
deriving DecidableEq, Repr

/-- The `type` field of a `FileChangeEvent` (`'change' | 'add' | 'unlink'`). -/
inductive ChangeType
  | change
  | add
  | unlink
deriving DecidableEq, Repr

/-- `FileChangeEvent` from `src/types/worker.ts`: `{ path, type }`. -/
structure FileChangeEvent where
  path : String
  type : ChangeType
deriving DecidableEq, Repr

/-- `FileEntry` from `src/core/FileSystem.ts`: a stored filesystem node.
Byte content is modelled as a list of naturals. -/
structure FileEntry where
  path : String
  content : List Nat
  type : EntryType
  modified : Nat
deriving DecidableEq, Repr

/-- `FileSystemNode` as returned by `stat` (`content` present only for files). -/
structure FileSystemNode where
  path : String
  type : EntryType
  content : Option (List Nat)
deriving DecidableEq, Repr

/-- VFS error classes (the `ENOENT`/`EISDIR`/`ENOTDIR`/`EEXIST`/`ENOTEMPTY`
messages thrown by `FileSystemImpl`). -/
inductive FsError
  | notFound
  | isADirectory
  | notADirectory
  | alreadyExists
  | notEmpty
deriving DecidableEq, Repr

/-! ### String helpers

JavaScript string primitives used by `FileSystemImpl` (`split`, `slice`,
`lastIndexOf`, `startsWith`, `length`), modelled over `String.data`. -/

/-- JS `s.split('/')` on the character list: splits at every `'/'`,
keeping empty segments (so `""` splits to `[""]` and `"/"` to `["",""]`). -/
def splitChar : List Char → List (List Char)
  | [] => [[]]
  | c :: rest =>
    if c = '/' then [] :: splitChar rest
    else
      match splitChar rest with
      | [] => [[c]]
      | s :: r => (c :: s) :: r

/-- JS `path.split('/')`. -/
def splitOnSlash (s : String) : List String :=
  (splitChar s.data).map String.mk

/-- JS `Array.prototype.join('/')` on the character level. -/
def intercalateSlash : List String → List Char
  | [] => []
  | [s] => s.data
  | s :: t :: rest => s.data ++ '/' :: intercalateSlash (t :: rest)

/-- Builds the absolute path `'/' + segs.join('/')`. -/
def mkPath (segs : List String) : String :=
  ⟨'/' :: intercalateSlash segs⟩

/-- JS `s.lastIndexOf(c)`: `-1` when absent, else the last index. -/
def lastIndexOfChar (l : List Char) (c : Char) : Int :=
  match l with
  | [] => -1
  | a :: rest =>
    let r := lastIndexOfChar rest c
    if r ≥ 0 then r + 1
    else if a = c then 0 else -1

/-- JS `s.length` (code units; our model is one `Char` per unit). -/
def strLen (s : String) : Nat := s.data.length

/-- JS `s.slice(0, n)`. -/
def strTake (s : String) (n : Nat) : String := ⟨s.data.take n⟩

/-- JS `s.slice(n)`. -/
def strDrop (s : String) (n : Nat) : String := ⟨s.data.drop n⟩

/-- JS `s.startsWith(p)`. -/
def strStartsWith (s p : String) : Bool := p.data.isPrefixOf s.data

/-! ### Path normalization (`FileSystemImpl.normalizePath`, `dirname`, `basename`) -/

/-- The `for (const part of parts)` resolution loop of `normalizePath`:
`'..'` pops the accumulator (a no-op past root), `'.'` is skipped,
anything else is pushed. -/
def resolveSegs : List String → List String → List String
  | [], acc => acc
  | p :: rest, acc =>
    if p = ".." then resolveSegs rest acc.dropLast
    else if p = "." then resolveSegs rest acc
    else resolveSegs rest (acc ++ [p])

/-- The segment list computed by `normalizePath`: split on `'/'`, drop empty
segments (`filter(Boolean)`), resolve `'.'` and `'..'`. -/
def normSegs (path : String) : List String :=
  resolveSegs ((splitOnSlash path).filter (· ≠ "")) []

/-- `FileSystemImpl.normalizePath`. -/
def normalizePath (path : String) : String :=
  if path = "" ∨ path = "." then "/"
  else mkPath (normSegs path)

/-- `FileSystemImpl.dirname`. -/
def dirname (path : String) : String :=
  let n := normalizePath path
  let i := lastIndexOfChar n.data '/'
  if i ≤ 0 then "/" else strTake n i.toNat

/-- `FileSystemImpl.basename`. -/
def basename (path : String) : String :=
  let n := normalizePath path
  let i := lastIndexOfChar n.data '/'
  if i = -1 then n else strDrop n (i.toNat + 1)

/-! ### The entry store (IndexedDB `files` object store, keyed by `path`) -/

/-- The persistent store: a list of entries, keyed by their `path` field. -/
abbrev Store := List FileEntry

/-- `db.get('files', k)`. -/
def storeGet (s : Store) (k : String) : Option FileEntry :=
  s.find? (fun e => e.path == k)

/-- `db.put('files', e)` (replace-by-key upsert). -/
def storePut (s : Store) (e : FileEntry) : Store :=
  s.filter (fun x => x.path ≠ e.path) ++ [e]

/-- `db.delete('files', k)`. -/
def storeDelete (s : Store) (k : String) : Store :=
  s.filter (fun x => x.path ≠ k)

/-- `db.getAllKeys('files')`. -/
def storeKeys (s : Store) : List String :=
  s.map (·.path)

/-! ### FileSystemImpl operations -/

/-- `FileSystemImpl.stat`. -/
def stat (s : Store) (path : String) : Except FsError FileSystemNode :=
  let n := normalizePath path
  match storeGet s n with
  | none => .error .notFound
  | some e => .ok ⟨n, e.type, if e.type = .file then some e.content else none⟩

/-- `FileSystemImpl.exists` (private): root always exists; otherwise an entry
of either type at the normalized path counts. -/
def existsPath (s : Store) (path : String) : Bool :=
  let n := normalizePath path
  if n = "/" then true
  else
    match stat s path with
    | .ok _ => true
    | .error _ => false

/-- `FileSystemImpl.initialize`: create the root entry if `stat('/')` fails. -/
def initFS (s : Store) (now : Nat) : Store :=
  match stat s "/" with
  | .ok _ => s
  | .error _ => storePut s ⟨"/", [], .directory, now⟩

/-- `FileSystemImpl.readFile`. -/
def readFile (s : Store) (path : String) : Except FsError (List Nat) :=
  let n := normalizePath path
  match storeGet s n with
  | none => .error .notFound
  | some e => if e.type ≠ .file then .error .isADirectory else .ok e.content

/-- `FileSystemImpl.writeFile`.  The TS guard is
`if (dirPath && !(await this.exists(dirPath)))`; `dirname` always returns a
non-empty string, so the first conjunct is always truthy. -/
def writeFile (s : Store) (path : String) (content : List Nat) (now : Nat) :
    Except FsError (Store × List FileChangeEvent) :=
  let n := normalizePath path
  let dirPath := dirname n
  if ¬ existsPath s dirPath then .error .notFound
  else .ok (storePut s ⟨n, content, .file, now⟩, [⟨n, .change⟩])

/-- The `for (let i = 0; i < parts.length; i++)` loop of `mkdir`:
`rest ≠ []` is `i < parts.length - 1`. -/
def mkdirLoop (recursive : Bool) (now : Nat) :
    List String → String → Store → List FileChangeEvent →
    Except FsError (Store × List FileChangeEvent)
  | [], _, s, evs => .ok (s, evs)
  | p :: rest, currentPath, s, evs =>
    let cur := currentPath ++ "/" ++ p
    if existsPath s cur then
      mkdirLoop recursive now rest cur s evs
    else if ¬ recursive ∧ rest ≠ [] then
      .error .notFound
    else
      mkdirLoop recursive now rest cur (storePut s ⟨cur, [], .directory, now⟩)
        (evs ++ [⟨cur, .add⟩])

/-- `FileSystemImpl.mkdir`.  When the path already exists and `recursive` is
set, the TS code stats it and returns success only for a directory; both the
non-directory branch and a failing `stat` end in the same `EEXIST` throw
(the inner `throw` is caught by the surrounding `catch`, which rethrows
`EEXIST`). -/
def mkdir (s : Store) (path : String) (recursive : Bool) (now : Nat) :
    Except FsError (Store × List FileChangeEvent) :=
  let n := normalizePath path
  if existsPath s n then
    if recursive then
      match stat s n with
      | .ok st => if st.type = .directory then .ok (s, []) else .error .alreadyExists
      | .error _ => .error .alreadyExists
    else .error .alreadyExists
  else
    mkdirLoop recursive now ((splitOnSlash n).filter (· ≠ "")) "" s []

/-- `FileSystemImpl.unlink`. -/
def unlink (s : Store) (path : String) : Except FsError (Store × List FileChangeEvent) :=
  let n := normalizePath path
  match storeGet s n with
  | none => .error .notFound
  | some e =>
    if e.type ≠ .file then .error .isADirectory
    else .ok (storeDelete s n, [⟨n, .unlink⟩])

/-- The scan prefix used by `readdir`:
`normalizedPath === '/' ? '/' : normalizedPath + '/'`. -/
def childPrefix (n : String) : String :=
  if n = "/" then "/" else n ++ "/"

/-- The scan condition of `readdir`:
`filePath.startsWith(prefix) && filePath !== normalizedPath`. -/
def childCond (n k : String) : Bool :=
  strStartsWith k (childPrefix n) && k != n

/-- The child name extracted by the scan: the part of the key past the
prefix, cut at its first `'/'` if any. -/
def childName (n k : String) : String :=
  let rel := strDrop k (strLen (childPrefix n))
  match rel.data.findIdx? (· = '/') with
  | none => rel
  | some i => strTake rel i

/-- The scan in `readdir`: all stored keys matching the prefix condition,
first segment past the prefix, collected through a `Set` (insertion order,
first occurrence kept). -/
def collectChildren (s : Store) (n : String) : List String :=
  (storeKeys s).foldl
    (fun acc k =>
      if childCond n k then
        (if childName n k ∈ acc then acc else acc ++ [childName n k])
      else acc)
    []

/-- `FileSystemImpl.readdir`: scan, dedupe, lexicographic sort
(`Array.from(children).sort()`). -/
def readdir (s : Store) (path : String) : Except FsError (List String) :=
  let n := normalizePath path
  match storeGet s n with
  | none => .error .notFound
  | some e =>
    if e.type ≠ .directory then .error .notADirectory
    else .ok (List.insertionSort (· ≤ ·) (collectChildren s n))

/-- `FileSystemImpl.rmdir`.  The recursion of the TS code is on child paths;
we bound it with explicit fuel (the fuel-out branch is unreachable for the
stores this development evaluates it on, which supply fuel exceeding any
possible nesting depth).  Note the TS child path is built as
`normalizedPath + '/' + child`, which for the root directory produces a
double-slash path such as `"//a"`. -/
def rmdirF : Nat → Store → String → Bool → Except FsError (Store × List FileChangeEvent)
  | 0, _, _, _ => .error .notFound
  | fuel + 1, s, path, recursive =>
    let n := normalizePath path
    match storeGet s n with
    | none => .error .notFound
    | some e =>
      if e.type ≠ .directory then .error .notADirectory
      else
        let children := List.insertionSort (· ≤ ·) (collectChildren s n)
        if children ≠ [] ∧ ¬ recursive then .error .notEmpty
        else do
          let (s', evs) ←
            if recursive then
              children.foldlM
                (fun (acc : Store × List FileChangeEvent) child => do
                  let childPath := n ++ "/" ++ child
                  match storeGet acc.1 childPath with
                  | some ce =>
                    if ce.type = .directory then do
                      let (s2, e2) ← rmdirF fuel acc.1 childPath true
                      pure (s2, acc.2 ++ e2)
                    else do
                      let (s2, e2) ← unlink acc.1 childPath
                      pure (s2, acc.2 ++ e2)
                  | none => do
                    let (s2, e2) ← unlink acc.1 childPath
                    pure (s2, acc.2 ++ e2))
                (s, [])
            else pure (s, [])
          pure (storeDelete s' n, evs ++ [⟨n, .unlink⟩])

/-- `FileSystemImpl.rmdir` with fuel one more than the store size (an upper
bound on the nesting depth of any chain of directory entries). -/
def rmdir (s : Store) (path : String) (recursive : Bool) :
    Except FsError (Store × List FileChangeEvent) :=
  rmdirF (s.length + 1) s path recursive

/-- The event filter installed by `FileSystemImpl.watch`: `none` when the
handler ignores the event, `some (eventType, filename)` when it fires. -/
def watchHandler (watchPath : String) (ev : FileChangeEvent) :
    Option (ChangeType × String) :=
  let n := normalizePath watchPath
  if ev.path = n ∨ strStartsWith ev.path (n ++ "/") then
    some (ev.type,
      if ev.path = n then basename ev.path else strDrop ev.path (strLen n + 1))
  else none

/-! ### Process manager (`src/core/ProcessManager.ts`)

`ProcessManagerImpl` holds a `Map<number, ProcessImpl>` of live processes;
each `ProcessImpl` has a `status` field and a `remoteId`
(`processInfo.id`, assigned by the worker).  We model the live map as a
list of records with distinct pids, bridge `killProcess` requests as an
explicit call list, and the event emitter as an explicit event list. -/

/-- `ProcessImpl.status`: `'running' | 'exited' | 'killed'`. -/
inductive PStatus
  | running
  | exited
  | killed
deriving DecidableEq, Repr

/-- One entry of the manager's live-process map. -/
structure ProcEntry where
  pid : Nat
  remoteId : String
  status : PStatus
deriving DecidableEq, Repr

/-- A `workerApi.killProcess(id, signal)` bridge request. -/
structure KillCall where
  remoteId : String
  signal : String
deriving DecidableEq, Repr

/-- Process-manager errors (`Process ${pid} not found`). -/
inductive PMError
  | processNotFound
deriving DecidableEq, Repr

/-- Events on the `process:spawn` / `process:exit` topics. -/
inductive PMEvent
  | procSpawn (pid : Nat)
  | procExit (pid : Nat) (exitCode : Int)
deriving DecidableEq, Repr

/-- The manager's live set (`this.processes`). -/
structure PMState where
  processes : List ProcEntry
deriving DecidableEq, Repr

/-- `ProcessImpl.kill(signal)`: returns immediately if the status has left
`running`; otherwise issues one `killProcess` bridge call and sets the
status to `killed`. -/
def procKill (p : ProcEntry) (signal : String) : ProcEntry × List KillCall :=
  if p.status ≠ .running then (p, [])
  else ({ p with status := .killed }, [⟨p.remoteId, signal⟩])

/-- `this.processes.get(pid)`. -/
def lookupProc (s : PMState) (pid : Nat) : Option ProcEntry :=
  s.processes.find? (fun p => p.pid == pid)

/-- `ProcessManagerImpl.kill(pid, signal)`: errors if the pid is not in the
live map, otherwise delegates to the process handle's `kill`.  The map
update replaces the entry with the matching pid (the map keys are unique in
the source, so this is the in-place mutation of the found object).  No event
is emitted on this path, hence the empty event list. -/
def managerKill (s : PMState) (pid : Nat) (signal : String) :
    Except PMError (PMState × List KillCall × List PMEvent) :=
  match lookupProc s pid with
  | none => .error .processNotFound
  | some p =>
    let pk := procKill p signal
    .ok (⟨s.processes.map (fun q => if q.pid == pid then pk.1 else q)⟩, pk.2, [])

/-- The bridge calls issued by `killAll()`: the `.map(process =>
process.kill())` starts every kill synchronously, so every running process
gets its `killProcess` request issued, whatever the other kills do.
`kill()` is called with its default signal. -/
def killAllCalls (s : PMState) : List KillCall :=
  s.processes.filterMap (fun p =>
    if p.status = .running then some ⟨p.remoteId, "SIGTERM"⟩ else none)

/-- Process states after all the kills started by `killAll()` have settled:
a kill whose bridge call resolves reaches `this.status = 'killed'`; a kill
whose bridge call rejects throws out of `ProcessImpl.kill` before the
assignment, so its process keeps status `running`; processes that had
already left `running` are untouched. `bridgeOk` tells whether the bridge
`killProcess` call for a given remote id resolves. -/
def killAllState (s : PMState) (bridgeOk : String → Bool) : PMState :=
  ⟨s.processes.map (fun p =>
    if p.status = .running ∧ bridgeOk p.remoteId then { p with status := PStatus.killed }
    else p)⟩

/-- Whether `Promise.all` in `killAll()` rejects: it does exactly when some
constituent kill rejects. -/
def killAllRejects (s : PMState) (bridgeOk : String → Bool) : Bool :=
  s.processes.any (fun p => p.status = .running ∧ ¬ bridgeOk p.remoteId)

/-- Settlement-time model of ECMAScript `Promise.all` over tasks given as
`(settleTime, resolves?)` pairs: it resolves once the last constituent has
resolved, but rejects already at the time of the first rejection. -/
def promiseAllSettleTime (tasks : List (Nat × Bool)) : Nat :=
  match (tasks.filter (fun t => ¬ t.2)).map (·.1) with
  | [] => (tasks.map (·.1)).foldl Nat.max 0
  | r :: rs => rs.foldl Nat.min r

/-- The kill tasks awaited by `killAll()`'s `Promise.all`, as
`(settleTime, resolves?)` pairs: a kill of an already-terminated process
resolves immediately; a kill of a running process settles when its bridge
call does (`settleAt`), resolving or rejecting per `bridgeOk`. -/
def killAllTasks (s : PMState) (bridgeOk : String → Bool) (settleAt : String → Nat) :
    List (Nat × Bool) :=
  s.processes.map (fun p =>
    if p.status = .running then (settleAt p.remoteId, bridgeOk p.remoteId) else (0, true))

/-- When `killAll()` itself settles. -/
def killAllSettleTime (s : PMState) (bridgeOk : String → Bool) (settleAt : String → Nat) : Nat :=
  promiseAllSettleTime (killAllTasks s bridgeOk settleAt)

/-- Claim C4 as stated, evaluated at a manager state, a bridge outcome and a
settlement schedule: every live kill is attempted, `killAll` waits for every
kill request to settle before it itself settles, and afterwards no process
has status `running`. -/
def claimC4At (s : PMState) (bridgeOk : String → Bool) (settleAt : String → Nat) : Bool :=
  (s.processes.all (fun p =>
    decide (p.status ≠ PStatus.running ∨ KillCall.mk p.remoteId "SIGTERM" ∈ killAllCalls s))) &&
  ((killAllTasks s bridgeOk settleAt).all
    (fun t => t.1 ≤ killAllSettleTime s bridgeOk settleAt)) &&
  ((killAllState s bridgeOk).processes.all (fun p => p.status ≠ PStatus.running))

/-! ### Watch subscriptions -/

/-- Modelled from the spec: `p` is a descendant path of `w` ("matches the
exact path or any descendant path").  For a non-root `w` that is any path
strictly below `w`; every path other than root is a descendant of root. -/
def descendantOfSpec (p w : String) : Bool :=
  if w = "/" then decide (p ≠ "/") && strStartsWith p "/"
  else strStartsWith p (w ++ "/")

/-- The mitt subscriber list for the `file:change` topic: watch ids paired
with the watch paths their handlers were built from.  Emitting an event
runs every registered handler. -/
def emitterFire (subs : List (Nat × String)) (ev : FileChangeEvent) :
    List (Nat × ChangeType × String) :=
  subs.filterMap (fun sub => (watchHandler sub.2 ev).map (fun r => (sub.1, r)))

/-- The unsubscribe closure returned by `watch`: `emitter.off` removes that
one handler. -/
def unsubscribe (subs : List (Nat × String)) (wid : Nat) : List (Nat × String) :=
  subs.filter (fun sub => sub.1 ≠ wid)

/-! ### Auxiliary predicates -/

/-- A well-formed path segment: what `normalizePath` can emit.  Non-empty,
not a dot segment, and free of separators. -/
def GoodSegs (L : List String) : Prop :=
  ∀ x ∈ L, x ≠ "" ∧ x ≠ "." ∧ x ≠ ".." ∧ '/' ∉ x.data

/-- The `currentPath` accumulator of the mkdir loop after consuming the
segments `A`: the empty string initially, `'/' + A.join('/')` afterwards. -/
def joinCur (A : List String) : String :=
  if A = [] then "" else mkPath A

/-- Decidable equality on `Except`, used to evaluate operations in witnesses. -/
instance {ε α : Type} [DecidableEq ε] [DecidableEq α] : DecidableEq (Except ε α) := fun a b =>
  match a, b with
  | .ok x, .ok y => if h : x = y then .isTrue (by rw [h]) else .isFalse (by simp [h])
  | .error x, .error y => if h : x = y then .isTrue (by rw [h]) else .isFalse (by simp [h])
  | .ok _, .error _ => .isFalse (by simp)
  | .error _, .ok _ => .isFalse (by simp)

/-! ## Path infrastructure lemmas -/

theorem splitChar_ne_nil (l : List Char) : splitChar l ≠ [] := by
  cases l with
  | nil => simp [splitChar]
  | cons c rest =>
    simp only [splitChar]
    split
    · simp
    · split <;> simp

theorem splitChar_cons_slash (l : List Char) :
    splitChar ('/' :: l) = [] :: splitChar l := by
  simp [splitChar]

theorem splitChar_cons_ne {c : Char} (hc : ¬ c = '/') (l : List Char) :
    splitChar (c :: l) =
      match splitChar l with
      | [] => [[c]]
      | s :: r => (c :: s) :: r := by
  simp [splitChar, hc]

theorem splitChar_append_slash (l₁ l₂ : List Char) :
    splitChar (l₁ ++ '/' :: l₂) = splitChar l₁ ++ splitChar l₂ := by
  induction l₁ with
  | nil => simp [splitChar]
  | cons c rest ih =>
    by_cases hc : c = '/'
    · subst hc
      rw [List.cons_append, splitChar_cons_slash, splitChar_cons_slash, ih, List.cons_append]
    · rw [List.cons_append, splitChar_cons_ne hc, splitChar_cons_ne hc, ih]
      cases hs : splitChar rest with
      | nil => exact absurd hs (splitChar_ne_nil rest)
      | cons s r => simp

theorem splitChar_no_slash {l : List Char} : '/' ∉ l → splitChar l = [l] := by
  induction l with
  | nil => intro _; rfl
  | cons c rest ih =>
    intro h
    have hc : ¬ c = '/' := fun hcc => h (hcc ▸ List.mem_cons_self c rest)
    have hr : '/' ∉ rest := fun hm => h (List.mem_cons_of_mem c hm)
    rw [splitChar_cons_ne hc, ih hr]

theorem not_slash_mem_of_mem_splitChar {l seg : List Char} :
    seg ∈ splitChar l → '/' ∉ seg := by
  induction l generalizing seg with
  | nil =>
    intro h
    simp only [splitChar, List.mem_singleton] at h
    subst h; simp
  | cons c rest ih =>
    intro h
    by_cases hc : c = '/'
    · subst hc
      rw [splitChar_cons_slash] at h
      rcases List.mem_cons.mp h with h | h
      · subst h; simp
      · exact ih h
    · rw [splitChar_cons_ne hc] at h
      cases hs : splitChar rest with
      | nil => exact absurd hs (splitChar_ne_nil rest)
      | cons s r =>
        rw [hs] at h
        rcases List.mem_cons.mp h with h | h
        · subst h
          intro hm
          rcases List.mem_cons.mp hm with h1 | h1
          · exact hc h1.symm
          · exact ih (hs ▸ List.mem_cons_self s r) h1
        · exact ih (hs ▸ List.mem_cons_of_mem s h)

theorem intercalateSlash_append {A : List String} (B : List String)
    (hA : A ≠ []) (hB : B ≠ []) :
    intercalateSlash (A ++ B) = intercalateSlash A ++ '/' :: intercalateSlash B := by
  induction A with
  | nil => cases hA rfl
  | cons a A ih =>
    cases A with
    | nil =>
      cases B with
      | nil => cases hB rfl
      | cons b B => simp [intercalateSlash]
    | cons a2 A2 =>
      have h2 : intercalateSlash (a2 :: A2 ++ B) =
          intercalateSlash (a2 :: A2) ++ '/' :: intercalateSlash B := ih (by simp)
      have e1 : (a :: a2 :: A2) ++ B = a :: (a2 :: A2 ++ B) := by simp
      rw [e1]
      show a.data ++ '/' :: intercalateSlash (a2 :: A2 ++ B) =
        (a.data ++ '/' :: intercalateSlash (a2 :: A2)) ++ '/' :: intercalateSlash B
      rw [h2]
      simp [List.append_assoc]

theorem lastIndexOfChar_not_mem {l : List Char} {c : Char} (h : c ∉ l) :
    lastIndexOfChar l c = -1 := by
  induction l with
  | nil => rfl
  | cons a rest ih =>
    have ha : ¬ a = c := fun hh => h (hh ▸ List.mem_cons_self a rest)
    have hr := ih (fun hm => h (List.mem_cons_of_mem a hm))
    simp [lastIndexOfChar, hr, ha]

theorem lastIndexOfChar_cons (a : Char) (l : List Char) (c : Char) :
    lastIndexOfChar (a :: l) c =
      if lastIndexOfChar l c ≥ 0 then lastIndexOfChar l c + 1
      else if a = c then 0 else -1 := rfl

theorem lastIndexOfChar_append {l₁ l₂ : List Char} {c : Char} (h : c ∉ l₂) :
    lastIndexOfChar (l₁ ++ c :: l₂) c = (l₁.length : Int) := by
  induction l₁ with
  | nil =>
    rw [List.nil_append, lastIndexOfChar_cons, lastIndexOfChar_not_mem h]
    norm_num
  | cons a rest ih =>
    rw [List.cons_append, lastIndexOfChar_cons, ih]
    have h0 : ((rest.length : Int) ≥ 0) := by exact_mod_cast Nat.zero_le _
    rw [if_pos h0]
    simp only [List.length_cons]
    push_cast
    ring

theorem resolveSegs_append (l₁ l₂ : List String) (acc : List String) :
    resolveSegs (l₁ ++ l₂) acc = resolveSegs l₂ (resolveSegs l₁ acc) := by
  induction l₁ generalizing acc with
  | nil => rfl
  | cons p rest ih =>
    by_cases h1 : p = ".."
    · simp [resolveSegs, h1, ih]
    · by_cases h2 : p = "."
      · simp [resolveSegs, h1, h2, ih]
      · simp [resolveSegs, h1, h2, ih]

theorem resolveSegs_plain {L : List String} (h : ∀ x ∈ L, x ≠ "." ∧ x ≠ "..")
    (acc : List String) : resolveSegs L acc = acc ++ L := by
  induction L generalizing acc with
  | nil => simp [resolveSegs]
  | cons p rest ih =>
    have hp := h p (List.mem_cons_self p rest)
    have hr : ∀ x ∈ rest, x ≠ "." ∧ x ≠ ".." := fun x hx => h x (List.mem_cons_of_mem p hx)
    simp [resolveSegs, hp.1, hp.2, ih hr]

theorem goodSegs_resolveSegs {L acc : List String}
    (hL : ∀ x ∈ L, x ≠ "" ∧ '/' ∉ x.data) (hacc : GoodSegs acc) :
    GoodSegs (resolveSegs L acc) := by
  induction L generalizing acc with
  | nil => exact hacc
  | cons p rest ih =>
    have hp := hL p (List.mem_cons_self p rest)
    have hr : ∀ x ∈ rest, x ≠ "" ∧ '/' ∉ x.data := fun x hx => hL x (List.mem_cons_of_mem p hx)
    by_cases h1 : p = ".."
    · simp only [resolveSegs, if_pos h1]
      exact ih hr (fun x hx => hacc x (List.dropLast_sublist acc |>.subset hx))
    · by_cases h2 : p = "."
      · simp only [resolveSegs, if_neg h1, if_pos h2]
        exact ih hr hacc
      · simp only [resolveSegs, if_neg h1, if_neg h2]
        refine ih hr (fun x hx => ?_)
        rcases List.mem_append.mp hx with hx | hx
        · exact hacc x hx
        · rcases List.mem_singleton.mp hx with rfl
          exact ⟨hp.1, h2, h1, hp.2⟩

theorem parts_good (p : String) :
    ∀ x ∈ (splitOnSlash p).filter (· ≠ ""), x ≠ "" ∧ '/' ∉ x.data := by
  intro x hx
  rw [List.mem_filter] at hx
  obtain ⟨hmem, hne⟩ := hx
  refine ⟨by simpa using hne, ?_⟩
  obtain ⟨seg, hseg, rfl⟩ := List.mem_map.mp hmem
  exact not_slash_mem_of_mem_splitChar hseg

theorem goodSegs_normSegs (p : String) : GoodSegs (normSegs p) :=
  goodSegs_resolveSegs (parts_good p) (by intro x hx; cases hx)

theorem stringMk_data (s : String) : String.mk s.data = s := by
  cases s; rfl

theorem splitChar_intercalate {L : List String} (h : ∀ x ∈ L, '/' ∉ x.data)
    (hL : L ≠ []) : splitChar (intercalateSlash L) = L.map String.data := by
  induction L with
  | nil => cases hL rfl
  | cons x rest ih =>
    cases rest with
    | nil =>
      show splitChar x.data = [x.data]
      exact splitChar_no_slash (h x (List.mem_cons_self x []))
    | cons y rest2 =>
      show splitChar (x.data ++ '/' :: intercalateSlash (y :: rest2)) = _
      rw [splitChar_append_slash,
        splitChar_no_slash (h x (List.mem_cons_self x (y :: rest2))),
        ih (fun z hz => h z (List.mem_cons_of_mem x hz)) (by simp)]
      rfl

theorem parts_mkPath {L : List String} (h : ∀ x ∈ L, x ≠ "" ∧ '/' ∉ x.data) :
    (splitOnSlash (mkPath L)).filter (· ≠ "") = L := by
  cases L with
  | nil => rfl
  | cons x rest =>
    have hx : ∀ z ∈ x :: rest, '/' ∉ z.data := fun z hz => (h z hz).2
    have hsp : splitOnSlash (mkPath (x :: rest)) = "" :: x :: rest := by
      show ((splitChar ('/' :: intercalateSlash (x :: rest))).map String.mk) = _
      rw [splitChar_cons_slash, splitChar_intercalate hx (by simp)]
      simp [Function.comp_def, stringMk_data]
    rw [hsp]
    have h1 : (("" : String) :: x :: rest).filter (· ≠ "") = (x :: rest).filter (· ≠ "") := by
      simp
    rw [h1, List.filter_eq_self.mpr]
    intro a ha
    simpa using (h a ha).1

theorem normalizePath_eq (p : String) : normalizePath p = mkPath (normSegs p) := by
  unfold normalizePath
  split
  next h =>
    rcases h with h | h <;> subst h <;> rfl
  next => rfl

theorem normSegs_mkPath {L : List String} (h : GoodSegs L) :
    normSegs (mkPath L) = L := by
  unfold normSegs
  rw [parts_mkPath (fun x hx => ⟨(h x hx).1, (h x hx).2.2.2⟩)]
  rw [resolveSegs_plain (fun x hx => ⟨(h x hx).2.1, (h x hx).2.2.1⟩)]
  rfl

theorem normalizePath_mkPath {L : List String} (h : GoodSegs L) :
    normalizePath (mkPath L) = mkPath L := by
  rw [normalizePath_eq, normSegs_mkPath h]

theorem normalizePath_idem (p : String) :
    normalizePath (normalizePath p) = normalizePath p := by
  rw [normalizePath_eq p, normalizePath_mkPath (goodSegs_normSegs p)]

theorem mkPath_nil : mkPath [] = "/" := rfl

theorem dirname_def (p : String) : dirname p =
    (if lastIndexOfChar (normalizePath p).data '/' ≤ 0 then "/"
     else strTake (normalizePath p) (lastIndexOfChar (normalizePath p).data '/').toNat) := rfl

theorem basename_def (p : String) : basename p =
    (if lastIndexOfChar (normalizePath p).data '/' = -1 then normalizePath p
     else strDrop (normalizePath p) ((lastIndexOfChar (normalizePath p).data '/').toNat + 1)) := rfl

theorem dirname_mkPath {L : List String} (h : GoodSegs L) :
    dirname (mkPath L) = mkPath L.dropLast := by
  rw [dirname_def, normalizePath_mkPath h]
  rcases List.eq_nil_or_concat L with rfl | ⟨A, x, rfl⟩
  · rfl
  · rw [List.concat_eq_append] at h ⊢
    have hx : '/' ∉ x.data := (h x (by simp)).2.2.2
    cases A with
    | nil =>
      have hidx : lastIndexOfChar (mkPath ([] ++ [x])).data '/' = 0 := by
        have h0 := @lastIndexOfChar_append [] x.data '/' hx
        simpa using h0
      rw [hidx]
      norm_num
      decide
    | cons a A2 =>
      have hdata : (mkPath ((a :: A2) ++ [x])).data =
          ('/' :: intercalateSlash (a :: A2)) ++ '/' :: x.data := by
        show '/' :: intercalateSlash ((a :: A2) ++ [x]) = _
        rw [intercalateSlash_append [x] (by simp) (by simp)]
        rfl
      have hidx : lastIndexOfChar (mkPath ((a :: A2) ++ [x])).data '/' =
          (('/' :: intercalateSlash (a :: A2)).length : Int) := by
        rw [hdata]; exact lastIndexOfChar_append hx
      rw [hidx]
      have hpos : ¬ ((('/' :: intercalateSlash (a :: A2)).length : Int) ≤ 0) := by
        simp
      rw [if_neg hpos]
      unfold strTake
      rw [hdata, Int.toNat_ofNat, List.take_left, List.dropLast_concat]
      rfl

/-! ## Store lemmas -/

theorem find?_filter_ne {s : Store} {k kp : String} (hk : k ≠ kp) :
    (s.filter (fun x => x.path ≠ kp)).find? (fun x => x.path == k) =
      s.find? (fun x => x.path == k) := by
  induction s with
  | nil => rfl
  | cons a rest ih =>
    by_cases ha : a.path = kp
    · have hne : ¬ (a.path == k) = true := by
        simp [ha]
        exact Ne.symm hk
      rw [List.filter_cons_of_neg (by simp [ha]), ih, List.find?_cons_of_neg rest hne]
    · rw [List.filter_cons_of_pos (by simp [ha])]
      by_cases hk2 : a.path = k
      · rw [List.find?_cons_of_pos _ (by simp [hk2]), List.find?_cons_of_pos rest (by simp [hk2])]
      · rw [List.find?_cons_of_neg _ (by simp [hk2]), List.find?_cons_of_neg rest (by simp [hk2]), ih]

theorem storeGet_put_self (s : Store) (e : FileEntry) :
    storeGet (storePut s e) e.path = some e := by
  unfold storeGet storePut
  rw [List.find?_append]
  have h1 : (s.filter (fun x => x.path ≠ e.path)).find? (fun x => x.path == e.path) = none := by
    rw [List.find?_eq_none]
    intro a ha
    have h2 := (List.mem_filter.mp ha).2
    simpa using h2
  rw [h1]
  simp

theorem storeGet_put_ne (s : Store) (e : FileEntry) {k : String} (hk : k ≠ e.path) :
    storeGet (storePut s e) k = storeGet s k := by
  unfold storeGet storePut
  rw [List.find?_append]
  have h2 : List.find? (fun x => x.path == k) [e] = none := by
    simp
    exact Ne.symm hk
  rw [h2, find?_filter_ne hk]
  cases s.find? (fun x => x.path == k) <;> rfl

theorem storeGet_delete_self (s : Store) (k : String) :
    storeGet (storeDelete s k) k = none := by
  unfold storeGet storeDelete
  rw [List.find?_eq_none]
  intro a ha
  have h2 := (List.mem_filter.mp ha).2
  simpa using h2

theorem storeGet_delete_ne (s : Store) {k k2 : String} (hk : k2 ≠ k) :
    storeGet (storeDelete s k) k2 = storeGet s k2 :=
  find?_filter_ne hk

/-! ## Unfolding lemmas for the let-style definitions -/

theorem stat_def (s : Store) (p : String) : stat s p =
    (match storeGet s (normalizePath p) with
     | none => .error .notFound
     | some e =>
       .ok ⟨normalizePath p, e.type, if e.type = .file then some e.content else none⟩) := rfl

theorem existsPath_def (s : Store) (p : String) : existsPath s p =
    (if normalizePath p = "/" then true
     else
       match stat s p with
       | .ok _ => true
       | .error _ => false) := rfl

theorem writeFile_def (s : Store) (p : String) (c : List Nat) (t : Nat) :
    writeFile s p c t =
    (if ¬ existsPath s (dirname (normalizePath p)) then .error .notFound
     else .ok (storePut s ⟨normalizePath p, c, .file, t⟩, [⟨normalizePath p, .change⟩])) := rfl

theorem existsPath_iff (s : Store) (p : String) :
    existsPath s p = true ↔
      normalizePath p = "/" ∨ (storeGet s (normalizePath p)).isSome := by
  rw [existsPath_def, stat_def]
  by_cases h : normalizePath p = "/"
  · simp [h]
  · cases hg : storeGet s (normalizePath p) <;> simp [h, hg]

/-! ## More helper lemmas -/

theorem map_id_of_forall_mem {α : Type} {f : α → α} {l : List α}
    (h : ∀ x ∈ l, f x = x) : l.map f = l := by
  induction l with
  | nil => rfl
  | cons a rest ih =>
    rw [List.map_cons, h a (List.mem_cons_self a rest),
      ih (fun x hx => h x (List.mem_cons_of_mem a hx))]

theorem foldl_max_init_le (l : List Nat) (a : Nat) : a ≤ l.foldl Nat.max a := by
  induction l generalizing a with
  | nil => exact Nat.le_refl a
  | cons x rest ih =>
    exact Nat.le_trans (Nat.le_max_left a x) (ih (Nat.max a x))

theorem le_foldl_max {l : List Nat} {x : Nat} (h : x ∈ l) (a : Nat) :
    x ≤ l.foldl Nat.max a := by
  induction l generalizing a with
  | nil => cases h
  | cons y rest ih =>
    rcases List.mem_cons.mp h with rfl | h2
    · exact Nat.le_trans (Nat.le_max_right a x) (foldl_max_init_le rest (Nat.max a x))
    · exact ih h2 (Nat.max a y)

/-! ## Claims -/

/-- C1: the spec's invariant says the root path `/` always exists as a
directory and cannot be deleted, so that `stat('/')` succeeds after any
sequence of operations.  The code violates it: on a freshly initialized
store, `rmdir('/', recursive := true)` succeeds, deletes the root entry and
leaves an empty store, after which `stat('/')` fails with `NotFound`. -/
theorem C1_rmdir_deletes_root :
    initFS [] 0 = [⟨"/", [], EntryType.directory, 0⟩] ∧
    rmdir (initFS [] 0) "/" true = .ok ([], [⟨"/", ChangeType.unlink⟩]) ∧
    stat ([] : Store) "/" = .error .notFound := by
  refine ⟨by decide, by decide, by decide⟩

/-- C2 counterexample: in a store where `/f` is a *file* entry,
`writeFile('/f/x', …)` does not fail — the parent-existence check accepts an
entry of either type — contradicting the claim that a file parent must make
writeFile fail. -/
theorem C2_counterexample_file_parent_accepted :
    storeGet [⟨"/", [], EntryType.directory, 0⟩, ⟨"/f", [1], EntryType.file, 1⟩] "/f" =
      some ⟨"/f", [1], EntryType.file, 1⟩ ∧
    dirname (normalizePath "/f/x") = "/f" ∧
    writeFile [⟨"/", [], EntryType.directory, 0⟩, ⟨"/f", [1], EntryType.file, 1⟩]
        "/f/x" [2] 2 =
      .ok ([⟨"/", [], EntryType.directory, 0⟩, ⟨"/f", [1], EntryType.file, 1⟩,
            ⟨"/f/x", [2], EntryType.file, 2⟩],
           [⟨"/f/x", ChangeType.change⟩]) := by
  refine ⟨by decide, by decide, by decide⟩

/-- C2 (amended): `writeFile` fails `NotFound` exactly when no entry of any
kind exists at the parent of the normalized path (and the parent of root
always passes, since root "exists" unconditionally); an entry of either type
at the parent suffices, so a file parent is accepted rather than rejected. -/
theorem C2_writeFile_parent_existence (s : Store) (p : String) (c : List Nat) (t : Nat) :
    (writeFile s p c t = .error .notFound ↔
      existsPath s (dirname (normalizePath p)) = false) ∧
    (normalizePath p = "/" → ∃ r, writeFile s p c t = .ok r) ∧
    (∀ e, storeGet s (normalizePath (dirname (normalizePath p))) = some e →
      ∃ r, writeFile s p c t = .ok r) := by
  refine ⟨?_, ?_, ?_⟩
  · rw [writeFile_def]
    cases hE : existsPath s (dirname (normalizePath p)) <;> simp [hE]
  · intro hroot
    have hd : dirname "/" = "/" := by decide
    have hnp : normalizePath "/" = "/" := by decide
    have hex : existsPath s "/" = true := by
      rw [existsPath_def, hnp]
      simp
    rw [writeFile_def, hroot, hd, hex]
    rw [if_neg (by simp)]
    exact ⟨_, rfl⟩
  · intro e he
    have hex : existsPath s (dirname (normalizePath p)) = true :=
      (existsPath_iff s (dirname (normalizePath p))).mpr (Or.inr (by rw [he]; rfl))
    rw [writeFile_def, hex, if_neg (by simp)]
    exact ⟨_, rfl⟩

/-- C2 witness: the amended theorem applied at concrete inputs — a write
under a missing parent fails `NotFound`, and a write under a file parent
succeeds. -/
theorem C2_writeFile_parent_existence_witness :
    writeFile [⟨"/", [], EntryType.directory, 0⟩] "/a/b" [5] 3 = .error .notFound ∧
    ∃ r, writeFile [⟨"/", [], EntryType.directory, 0⟩, ⟨"/f", [1], EntryType.file, 1⟩]
        "/f/x" [5] 3 = .ok r :=
  ⟨(C2_writeFile_parent_existence [⟨"/", [], EntryType.directory, 0⟩] "/a/b" [5] 3).1.mpr
      (by decide),
   (C2_writeFile_parent_existence
      [⟨"/", [], EntryType.directory, 0⟩, ⟨"/f", [1], EntryType.file, 1⟩] "/f/x" [5] 3).2.2
      ⟨"/f", [1], EntryType.file, 1⟩ (by decide)⟩

/-- C5 counterexample: `Date.now()` is only non-decreasing, and the code
performs no tie-breaking — two writes to `/a` within the same clock
millisecond (here 7) both store `modifiedAt = 7`, so the second write's
timestamp is not strictly greater than the first's. -/
theorem C5_counterexample_equal_clock :
    writeFile [⟨"/", [], EntryType.directory, 0⟩] "/a" [1] 7 =
      .ok ([⟨"/", [], EntryType.directory, 0⟩, ⟨"/a", [1], EntryType.file, 7⟩],
           [⟨"/a", ChangeType.change⟩]) ∧
    writeFile [⟨"/", [], EntryType.directory, 0⟩, ⟨"/a", [1], EntryType.file, 7⟩]
        "/a" [2] 7 =
      .ok ([⟨"/", [], EntryType.directory, 0⟩, ⟨"/a", [2], EntryType.file, 7⟩],
           [⟨"/a", ChangeType.change⟩]) ∧
    (storeGet [⟨"/", [], EntryType.directory, 0⟩, ⟨"/a", [1], EntryType.file, 7⟩] "/a").map
      (fun e => e.modified) = some 7 ∧
    (storeGet [⟨"/", [], EntryType.directory, 0⟩, ⟨"/a", [2], EntryType.file, 7⟩] "/a").map
      (fun e => e.modified) = some 7 ∧
    ¬ (7 : Nat) < 7 := by
  refine ⟨by decide, by decide, by decide, by decide, by decide⟩

/-- C5 (amended): `modifiedAt` is set to the current clock value on every
write, so across two writes to the same path it follows the clock: it is
non-decreasing whenever the clock is non-decreasing and strictly increasing
exactly when the clock advanced between the writes; a second write to an
already-written path always succeeds. -/
theorem C5_modifiedAt_follows_clock (s : Store) (p : String) (c1 c2 : List Nat)
    (t1 t2 : Nat) (s1 : Store) (ev1 : List FileChangeEvent)
    (h1 : writeFile s p c1 t1 = .ok (s1, ev1)) :
    (storeGet s1 (normalizePath p)).map (fun e => e.modified) = some t1 ∧
    ∃ s2 ev2, writeFile s1 p c2 t2 = .ok (s2, ev2) ∧
      (storeGet s2 (normalizePath p)).map (fun e => e.modified) = some t2 ∧
      (t1 ≤ t2 → ∀ e1 e2, storeGet s1 (normalizePath p) = some e1 →
        storeGet s2 (normalizePath p) = some e2 → e1.modified ≤ e2.modified) ∧
      (t1 < t2 → ∀ e1 e2, storeGet s1 (normalizePath p) = some e1 →
        storeGet s2 (normalizePath p) = some e2 → e1.modified < e2.modified) := by
  rw [writeFile_def] at h1
  by_cases hE : existsPath s (dirname (normalizePath p)) = true
  swap
  · rw [if_pos (by simpa using hE)] at h1
    cases h1
  rw [if_neg (by simp [hE])] at h1
  simp only [Except.ok.injEq, Prod.mk.injEq] at h1
  obtain ⟨hs1, -⟩ := h1
  subst hs1
  have hget1 : storeGet (storePut s ⟨normalizePath p, c1, .file, t1⟩) (normalizePath p) =
      some ⟨normalizePath p, c1, .file, t1⟩ :=
    storeGet_put_self s ⟨normalizePath p, c1, .file, t1⟩
  have hE1 : existsPath (storePut s ⟨normalizePath p, c1, .file, t1⟩)
      (dirname (normalizePath p)) = true := by
    rw [existsPath_iff] at hE ⊢
    rcases hE with h | h
    · exact Or.inl h
    · right
      by_cases hk : normalizePath (dirname (normalizePath p)) = normalizePath p
      · rw [hk, hget1]; rfl
      · rw [storeGet_put_ne s _ hk]; exact h
  refine ⟨by rw [hget1]; rfl, ?_⟩
  refine ⟨storePut (storePut s ⟨normalizePath p, c1, .file, t1⟩)
      ⟨normalizePath p, c2, .file, t2⟩,
    [⟨normalizePath p, .change⟩], ?_, ?_, ?_, ?_⟩
  · rw [writeFile_def, hE1, if_neg (by simp)]
  · rw [storeGet_put_self]
    rfl
  · intro hle e1 e2 he1 he2
    rw [hget1] at he1
    rw [storeGet_put_self] at he2
    cases he1; cases he2
    exact hle
  · intro hlt e1 e2 he1 he2
    rw [hget1] at he1
    rw [storeGet_put_self] at he2
    cases he1; cases he2
    exact hlt

/-- C5 witness: the amended theorem at a concrete store (writes at clock
times 3 then 5). -/
theorem C5_modifiedAt_follows_clock_witness :
    (storeGet [⟨"/", [], EntryType.directory, 0⟩, ⟨"/a", [1], EntryType.file, 3⟩]
      (normalizePath "/a")).map (fun e => e.modified) = some 3 ∧
    ∃ s2 ev2,
      writeFile [⟨"/", [], EntryType.directory, 0⟩, ⟨"/a", [1], EntryType.file, 3⟩]
        "/a" [2] 5 = .ok (s2, ev2) ∧
      (storeGet s2 (normalizePath "/a")).map (fun e => e.modified) = some 5 ∧
      (3 ≤ 5 → ∀ e1 e2,
        storeGet [⟨"/", [], EntryType.directory, 0⟩, ⟨"/a", [1], EntryType.file, 3⟩]
          (normalizePath "/a") = some e1 →
        storeGet s2 (normalizePath "/a") = some e2 → e1.modified ≤ e2.modified) ∧
      (3 < 5 → ∀ e1 e2,
        storeGet [⟨"/", [], EntryType.directory, 0⟩, ⟨"/a", [1], EntryType.file, 3⟩]
          (normalizePath "/a") = some e1 →
        storeGet s2 (normalizePath "/a") = some e2 → e1.modified < e2.modified) :=
  C5_modifiedAt_follows_clock [⟨"/", [], EntryType.directory, 0⟩] "/a" [1] [2] 3 5
    [⟨"/", [], EntryType.directory, 0⟩, ⟨"/a", [1], EntryType.file, 3⟩]
    [⟨"/a", ChangeType.change⟩] (by decide)

/-- C10: `writeFile` to a path that currently exists as a non-root directory
(and whose parent exists) does not fail `IsADirectory`: it succeeds and
replaces the directory entry with a file entry, after which `stat` reports a
file with the written content while every other stored entry — in particular
the directory's former children — is untouched. -/
theorem C10_writeFile_replaces_directory (s : Store) (p : String) (c : List Nat) (t : Nat)
    (e : FileEntry) (hdir : storeGet s (normalizePath p) = some e)
    (htype : e.type = EntryType.directory) (hroot : normalizePath p ≠ "/")
    (hparent : existsPath s (dirname (normalizePath p)) = true) :
    writeFile s p c t = .ok (storePut s ⟨normalizePath p, c, .file, t⟩,
      [⟨normalizePath p, ChangeType.change⟩]) ∧
    stat (storePut s ⟨normalizePath p, c, .file, t⟩) p =
      .ok ⟨normalizePath p, EntryType.file, some c⟩ ∧
    (∀ k, k ≠ normalizePath p →
      storeGet (storePut s ⟨normalizePath p, c, .file, t⟩) k = storeGet s k) := by
  refine ⟨?_, ?_, ?_⟩
  · rw [writeFile_def, hparent, if_neg (by simp)]
  · rw [stat_def, storeGet_put_self s ⟨normalizePath p, c, .file, t⟩]
    rfl
  · intro k hk
    exact storeGet_put_ne s _ hk

/-- C10 witness: overwrite the directory `/d` (which has child `/d/x`) with a
file; the child entry survives as an orphan. -/
theorem C10_writeFile_replaces_directory_witness :
    writeFile
      [⟨"/", [], EntryType.directory, 0⟩, ⟨"/d", [], EntryType.directory, 1⟩,
       ⟨"/d/x", [9], EntryType.file, 2⟩] "/d" [3] 4 =
      .ok (storePut
        [⟨"/", [], EntryType.directory, 0⟩, ⟨"/d", [], EntryType.directory, 1⟩,
         ⟨"/d/x", [9], EntryType.file, 2⟩] ⟨normalizePath "/d", [3], .file, 4⟩,
        [⟨normalizePath "/d", ChangeType.change⟩]) ∧
    stat (storePut
      [⟨"/", [], EntryType.directory, 0⟩, ⟨"/d", [], EntryType.directory, 1⟩,
       ⟨"/d/x", [9], EntryType.file, 2⟩] ⟨normalizePath "/d", [3], .file, 4⟩) "/d" =
      .ok ⟨normalizePath "/d", EntryType.file, some [3]⟩ ∧
    (∀ k, k ≠ normalizePath "/d" →
      storeGet (storePut
        [⟨"/", [], EntryType.directory, 0⟩, ⟨"/d", [], EntryType.directory, 1⟩,
         ⟨"/d/x", [9], EntryType.file, 2⟩] ⟨normalizePath "/d", [3], .file, 4⟩) k =
      storeGet
        [⟨"/", [], EntryType.directory, 0⟩, ⟨"/d", [], EntryType.directory, 1⟩,
         ⟨"/d/x", [9], EntryType.file, 2⟩] k) :=
  C10_writeFile_replaces_directory
    [⟨"/", [], EntryType.directory, 0⟩, ⟨"/d", [], EntryType.directory, 1⟩,
     ⟨"/d/x", [9], EntryType.file, 2⟩] "/d" [3] 4
    ⟨"/d", [], EntryType.directory, 1⟩ (by decide) (by decide) (by decide) (by decide)

/-- C3: killing an unknown pid fails `NotFound`; killing a process whose
status has already left `running` (whatever terminal state it reached) is an
idempotent no-op — no error, no bridge call, no event, and the manager state
is unchanged. -/
theorem C3_kill_semantics (s : PMState) (pid : Nat) (signal : String)
    (hnodup : (s.processes.map (fun p => p.pid)).Nodup) :
    (lookupProc s pid = none → managerKill s pid signal = .error .processNotFound) ∧
    (∀ p, lookupProc s pid = some p → p.status ≠ PStatus.running →
      managerKill s pid signal = .ok (s, [], [])) := by
  constructor
  · intro h
    unfold managerKill
    rw [h]
  · intro p hfind hstat
    have hpk : procKill p signal = (p, []) := by
      unfold procKill
      rw [if_pos hstat]
    have hpid : p.pid = pid := by
      have := List.find?_some hfind
      simpa using this
    have hmem : p ∈ s.processes := List.mem_of_find?_eq_some hfind
    have hmap : s.processes.map (fun q => if q.pid == pid then p else q) = s.processes := by
      apply map_id_of_forall_mem
      intro q hq
      by_cases hbq : (q.pid == pid) = true
      · have hqpid : q.pid = pid := by simpa using hbq
        have : q = p := List.inj_on_of_nodup_map hnodup hq hmem (by rw [hqpid, hpid])
        rw [if_pos hbq, this]
      · rw [if_neg hbq]
    unfold managerKill
    rw [hfind]
    simp only [hpk, hmap]

/-- C3 witness: a one-process manager whose process has already exited —
killing pid 2 fails `NotFound`, killing pid 1 again is a silent no-op. -/
theorem C3_kill_semantics_witness :
    managerKill ⟨[⟨1, "r1", PStatus.exited⟩]⟩ 2 "SIGTERM" = .error .processNotFound ∧
    managerKill ⟨[⟨1, "r1", PStatus.exited⟩]⟩ 1 "SIGTERM" =
      .ok (⟨[⟨1, "r1", PStatus.exited⟩]⟩, [], []) :=
  ⟨(C3_kill_semantics ⟨[⟨1, "r1", PStatus.exited⟩]⟩ 2 "SIGTERM" (by decide)).1 (by decide),
   (C3_kill_semantics ⟨[⟨1, "r1", PStatus.exited⟩]⟩ 1 "SIGTERM" (by decide)).2
     ⟨1, "r1", PStatus.exited⟩ (by decide) (by decide)⟩

/-- C4 counterexample: two running processes; the bridge kill for `r1`
rejects (settling at time 5), the one for `r2` resolves at time 9.
`Promise.all` then rejects at time 5, before the `r2` kill settles — so
killAll does not wait for all kill requests to settle — and process 1 is
still `running` afterwards.  The claim, evaluated at this input, is false. -/
theorem C4_counterexample_promise_all_short_circuits :
    claimC4At ⟨[⟨1, "r1", PStatus.running⟩, ⟨2, "r2", PStatus.running⟩]⟩
      (fun r => !(r == "r1")) (fun r => if r == "r1" then 5 else 9) = false ∧
    killAllSettleTime ⟨[⟨1, "r1", PStatus.running⟩, ⟨2, "r2", PStatus.running⟩]⟩
      (fun r => !(r == "r1")) (fun r => if r == "r1" then 5 else 9) = 5 ∧
    killAllTasks ⟨[⟨1, "r1", PStatus.running⟩, ⟨2, "r2", PStatus.running⟩]⟩
      (fun r => !(r == "r1")) (fun r => if r == "r1" then 5 else 9) =
      [(5, false), (9, true)] ∧
    killAllState ⟨[⟨1, "r1", PStatus.running⟩, ⟨2, "r2", PStatus.running⟩]⟩
      (fun r => !(r == "r1")) =
      ⟨[⟨1, "r1", PStatus.running⟩, ⟨2, "r2", PStatus.killed⟩]⟩ := by
  refine ⟨by decide, by decide, by decide, by decide⟩

/-- C4 (amended): `killAll` starts a kill for every live running process, so
every one of them gets its bridge `killProcess` request regardless of other
failures; when every bridge kill resolves, `Promise.all` resolves only after
all of them settle and no process is left `running`; but when some bridge
kill rejects, `killAll` rejects (with the first failure) and the process
whose kill failed keeps status `running`. -/
theorem C4_killAll_behaviour (s : PMState) (bridgeOk : String → Bool)
    (settleAt : String → Nat) :
    (∀ p ∈ s.processes, p.status = PStatus.running →
      KillCall.mk p.remoteId "SIGTERM" ∈ killAllCalls s) ∧
    (killAllRejects s bridgeOk = false →
      (∀ p ∈ (killAllState s bridgeOk).processes, p.status ≠ PStatus.running) ∧
      (∀ task ∈ killAllTasks s bridgeOk settleAt,
        task.1 ≤ killAllSettleTime s bridgeOk settleAt)) ∧
    (∀ p ∈ s.processes, p.status = PStatus.running → bridgeOk p.remoteId = false →
      killAllRejects s bridgeOk = true ∧
      ∃ q ∈ (killAllState s bridgeOk).processes, q.pid = p.pid ∧
        q.status = PStatus.running) := by
  refine ⟨?_, ?_, ?_⟩
  · intro p hp hrun
    unfold killAllCalls
    rw [List.mem_filterMap]
    exact ⟨p, hp, by rw [if_pos hrun]⟩
  · intro hok
    have hall : ∀ p ∈ s.processes, p.status = PStatus.running → bridgeOk p.remoteId = true := by
      intro p hp hrun
      have h2 := List.any_eq_false.mp hok p hp
      simp only [decide_eq_true_eq] at h2
      by_cases hb : bridgeOk p.remoteId = true
      · exact hb
      · exact absurd ⟨hrun, by simpa using hb⟩ h2
    constructor
    · intro q hq
      unfold killAllState at hq
      simp only [List.mem_map] at hq
      obtain ⟨p, hp, rfl⟩ := hq
      by_cases hc : p.status = PStatus.running ∧ bridgeOk p.remoteId = true
      · rw [if_pos (by exact_mod_cast hc)]
        simp
      · rw [if_neg (by exact_mod_cast hc)]
        intro hrun
        exact hc ⟨hrun, hall p hp hrun⟩
    · intro task htask
      unfold killAllSettleTime promiseAllSettleTime
      have hfilter : (killAllTasks s bridgeOk settleAt).filter (fun t => ¬ t.2) = [] := by
        rw [List.filter_eq_nil]
        intro t ht
        unfold killAllTasks at ht
        simp only [List.mem_map] at ht
        obtain ⟨p, hp, rfl⟩ := ht
        by_cases hrun : p.status = PStatus.running
        · rw [if_pos hrun]
          simp [hall p hp hrun]
        · rw [if_neg hrun]
          simp
      rw [hfilter]
      simp only [List.map_nil]
      exact le_foldl_max (List.mem_map_of_mem (fun t => t.1) htask) 0
  · intro p hp hrun hfail
    constructor
    · unfold killAllRejects
      rw [List.any_eq_true]
      exact ⟨p, hp, by simp [hrun, hfail]⟩
    · refine ⟨p, ?_, rfl, hrun⟩
      unfold killAllState
      rw [List.mem_map]
      refine ⟨p, hp, ?_⟩
      rw [if_neg (by simp [hfail])]

/-- C4 witness: the amended theorem applied to a one-process manager with a
succeeding bridge: its kill call is issued and afterwards nothing runs. -/
theorem C4_killAll_behaviour_witness :
    KillCall.mk "a" "SIGTERM" ∈ killAllCalls ⟨[⟨1, "a", PStatus.running⟩]⟩ ∧
    ∀ p ∈ (killAllState ⟨[⟨1, "a", PStatus.running⟩]⟩ (fun _ => true)).processes,
      p.status ≠ PStatus.running :=
  ⟨(C4_killAll_behaviour ⟨[⟨1, "a", PStatus.running⟩]⟩ (fun _ => true) (fun _ => 4)).1
      ⟨1, "a", PStatus.running⟩ (by decide) (by decide),
   ((C4_killAll_behaviour ⟨[⟨1, "a", PStatus.running⟩]⟩ (fun _ => true) (fun _ => 4)).2.1
      (by decide)).1⟩

/-! ## Normalization claim (C8) -/

theorem data_ne_nil_of_ne_empty {x : String} (h : x ≠ "") : x.data ≠ [] := by
  intro hd
  exact h (String.ext hd)

theorem intercalateSlash_ne_nil {L : List String} (h : ∀ x ∈ L, x ≠ "")
    (hL : L ≠ []) : intercalateSlash L ≠ [] := by
  cases L with
  | nil => cases hL rfl
  | cons x rest =>
    cases rest with
    | nil =>
      exact data_ne_nil_of_ne_empty (h x (List.mem_cons_self x []))
    | cons y rest2 =>
      show x.data ++ '/' :: intercalateSlash (y :: rest2) ≠ []
      simp

theorem getLast?_append_cons {α : Type} {l₁ l₂ : List α} {a : α} (h : l₂ ≠ []) :
    (l₁ ++ a :: l₂).getLast? = l₂.getLast? := by
  cases l₂ with
  | nil => cases h rfl
  | cons b bs =>
    rw [List.getLast?_append, List.getLast?_cons_cons]
    cases hg : (b :: bs).getLast? with
    | none =>
      have h2 := List.getLast?_eq_none_iff.mp hg
      simp at h2
    | some d => rfl

theorem intercalateSlash_getLast_ne_slash {L : List String}
    (h : ∀ x ∈ L, x ≠ "" ∧ '/' ∉ x.data) (hL : L ≠ []) :
    ∀ c, (intercalateSlash L).getLast? = some c → c ≠ '/' := by
  induction L with
  | nil => cases hL rfl
  | cons x rest ih =>
    cases rest with
    | nil =>
      intro c hc
      have hmemc : c ∈ x.data := List.mem_of_getLast?_eq_some hc
      intro hcs
      exact (h x (List.mem_cons_self x [])).2 (hcs ▸ hmemc)
    | cons y rest2 =>
      intro c hc
      have hne : intercalateSlash (y :: rest2) ≠ [] :=
        intercalateSlash_ne_nil (fun z hz => (h z (List.mem_cons_of_mem x hz)).1) (by simp)
      have hstep : (intercalateSlash (x :: y :: rest2)).getLast? =
          (intercalateSlash (y :: rest2)).getLast? := by
        show (x.data ++ '/' :: intercalateSlash (y :: rest2)).getLast? = _
        exact getLast?_append_cons hne
      rw [hstep] at hc
      exact ih (fun z hz => h z (List.mem_cons_of_mem x hz)) (by simp) c hc

theorem normSegs_append_dot (p : String) : normSegs (p ++ "/.") = normSegs p := by
  unfold normSegs splitOnSlash
  have hdata : (p ++ "/.").data = p.data ++ '/' :: ['.'] := by
    rw [String.data_append]
  rw [hdata, splitChar_append_slash]
  rw [List.map_append, List.filter_append]
  have h2 : ((splitChar ['.']).map String.mk).filter (· ≠ "") = ["."] := by decide
  rw [h2, resolveSegs_append]
  simp [resolveSegs]

theorem normSegs_append_dotdot (p : String) :
    normSegs (p ++ "/..") = (normSegs p).dropLast := by
  unfold normSegs splitOnSlash
  have hdata : (p ++ "/..").data = p.data ++ '/' :: ['.', '.'] := by
    rw [String.data_append]
  rw [hdata, splitChar_append_slash]
  rw [List.map_append, List.filter_append]
  have h2 : ((splitChar ['.', '.']).map String.mk).filter (· ≠ "") = [".."] := by decide
  rw [h2, resolveSegs_append]
  simp [resolveSegs]

/-- C8: path normalization is idempotent; the empty path and `.` (and `/..`,
by popping past root) normalize to root; every output is absolute (leading
`/`) with no trailing `/` except root itself; a trailing `/.` segment is
collapsed; a trailing `/..` segment pops the last resolved segment — i.e.
normalizing `p ++ "/.."` yields the parent directory of the normalization of
`p`, and popping past root is a no-op, not an error. -/
theorem C8_normalizePath_properties :
    (∀ p, normalizePath (normalizePath p) = normalizePath p) ∧
    normalizePath "" = "/" ∧
    normalizePath "." = "/" ∧
    normalizePath "/.." = "/" ∧
    (∀ p, (normalizePath p).data.head? = some '/') ∧
    (∀ p, normalizePath p ≠ "/" → (normalizePath p).data.getLast? ≠ some '/') ∧
    (∀ p, normalizePath (p ++ "/.") = normalizePath p) ∧
    (∀ p, normalizePath (p ++ "/..") = dirname (normalizePath p)) := by
  refine ⟨normalizePath_idem, by decide, by decide, by decide, ?_, ?_, ?_, ?_⟩
  · intro p
    rw [normalizePath_eq p]
    rfl
  · intro p hroot
    rw [normalizePath_eq p] at hroot ⊢
    have hgood := goodSegs_normSegs p
    cases hL : normSegs p with
    | nil => exact absurd (by rw [hL]; rfl) hroot
    | cons x rest =>
      rw [hL] at hgood
      intro hlast
      have hne : intercalateSlash (x :: rest) ≠ [] :=
        intercalateSlash_ne_nil (fun z hz => (hgood z hz).1) (by simp)
      have hstep : (mkPath (x :: rest)).data.getLast? =
          (intercalateSlash (x :: rest)).getLast? := by
        show (([] : List Char) ++ '/' :: intercalateSlash (x :: rest)).getLast? = _
        exact getLast?_append_cons hne
      rw [hstep] at hlast
      exact intercalateSlash_getLast_ne_slash
        (fun z hz => ⟨(hgood z hz).1, (hgood z hz).2.2.2⟩) (by simp) '/' hlast rfl
  · intro p
    rw [normalizePath_eq (p ++ "/."), normSegs_append_dot, ← normalizePath_eq p]
  · intro p
    rw [normalizePath_eq (p ++ "/.."), normSegs_append_dotdot,
      normalizePath_eq p, dirname_mkPath (goodSegs_normSegs p)]

/-- C8 witness: idempotence, the no-trailing-slash property and the `..`
pop applied at concrete paths. -/
theorem C8_normalizePath_properties_witness :
    normalizePath (normalizePath "a//b/../c/.") = normalizePath "a//b/../c/." ∧
    (normalizePath "/a" ≠ "/" ∧ (normalizePath "/a").data.getLast? ≠ some '/') ∧
    normalizePath ("/a/b" ++ "/..") = dirname (normalizePath "/a/b") :=
  ⟨C8_normalizePath_properties.1 "a//b/../c/.",
   ⟨by decide, C8_normalizePath_properties.2.2.2.2.2.1 "/a" (by decide)⟩,
   C8_normalizePath_properties.2.2.2.2.2.2.2 "/a/b"⟩

/-! ## mkdir claim (C7) -/

theorem intercalateSlash_length_lt {x : String} (hx : x ≠ "") :
    ∀ (A : List String) (B : List String),
      (intercalateSlash A).length < (intercalateSlash (A ++ x :: B)).length := by
  have hxlen : 0 < x.data.length :=
    List.length_pos.mpr (data_ne_nil_of_ne_empty hx)
  intro A
  induction A with
  | nil =>
    intro B
    cases B with
    | nil => simpa [intercalateSlash] using hxlen
    | cons b bs =>
      show 0 < (x.data ++ '/' :: intercalateSlash (b :: bs)).length
      simp
  | cons a A2 ih =>
    intro B
    cases A2 with
    | nil =>
      show a.data.length < (a.data ++ '/' :: intercalateSlash (x :: B)).length
      simp
    | cons a2 A3 =>
      show (a.data ++ '/' :: intercalateSlash (a2 :: A3)).length <
        (a.data ++ '/' :: intercalateSlash ((a2 :: A3) ++ x :: B)).length
      have h2 := ih B
      simp only [List.length_append, List.length_cons]
      omega

theorem mkPath_ne_extend {A : List String} {x : String} (hx : x ≠ "") (B : List String) :
    mkPath A ≠ mkPath (A ++ x :: B) := by
  intro he
  have h2 := congrArg (fun q => q.data.length) he
  simp only [mkPath] at h2
  have h3 := intercalateSlash_length_lt hx A B
  simp only [List.length_cons] at h2
  omega

theorem mkPath_ne_root {L : List String} (h : ∀ x ∈ L, x ≠ "") (hL : L ≠ []) :
    mkPath L ≠ "/" := by
  intro he
  have h2 : '/' :: intercalateSlash L = ['/'] := congrArg String.data he
  have h3 : intercalateSlash L = [] := (List.cons.injEq _ _ _ _ ▸ h2).2
  exact intercalateSlash_ne_nil h hL h3

theorem existsPath_mkPath {L : List String} (hgood : GoodSegs L) (hL : L ≠ [])
    (s : Store) :
    existsPath s (mkPath L) = (storeGet s (mkPath L)).isSome := by
  have hne : mkPath L ≠ "/" := mkPath_ne_root (fun x hx => (hgood x hx).1) hL
  rw [existsPath_def, stat_def, normalizePath_mkPath hgood, if_neg hne]
  cases hg : storeGet s (mkPath L) <;> simp [hg]

theorem joinCur_append (A : List String) (x : String) :
    joinCur A ++ "/" ++ x = mkPath (A ++ [x]) := by
  apply String.ext
  rw [String.data_append, String.data_append]
  cases A with
  | nil =>
    show ([] : List Char) ++ ['/'] ++ x.data = '/' :: intercalateSlash [x]
    simp [intercalateSlash]
  | cons a A2 =>
    show ('/' :: intercalateSlash (a :: A2)) ++ ['/'] ++ x.data =
      '/' :: intercalateSlash ((a :: A2) ++ [x])
    rw [intercalateSlash_append [x] (by simp) (by simp)]
    simp [intercalateSlash]

theorem stat_normalize (s : Store) (p : String) :
    stat s (normalizePath p) = stat s p := by
  rw [stat_def, stat_def, normalizePath_idem]

theorem mkdirLoop_creates {rec : Bool} {now : Nat} :
    ∀ (B A : List String) (s : Store) (evs : List FileChangeEvent)
      (s2 : Store) (evs2 : List FileChangeEvent),
      GoodSegs (A ++ B) → B ≠ [] →
      storeGet s (mkPath (A ++ B)) = none →
      mkdirLoop rec now B (joinCur A) s evs = .ok (s2, evs2) →
      storeGet s2 (mkPath (A ++ B)) = some ⟨mkPath (A ++ B), [], .directory, now⟩ := by
  intro B
  induction B with
  | nil => intro A s evs s2 evs2 _ hB; cases hB rfl
  | cons p rest ih =>
    intro A s evs s2 evs2 hgood _ hnone h
    simp only [mkdirLoop, joinCur_append] at h
    have hp : p ∈ A ++ p :: rest := by simp
    have hpgood := hgood p hp
    cases rest with
    | nil =>
      have hfull : A ++ [p] = A ++ p :: [] := rfl
      have hex : existsPath s (mkPath (A ++ [p])) = false := by
        rw [existsPath_mkPath (by rw [hfull]; exact hgood) (by simp) s, hfull, hnone]
        rfl
      rw [hex] at h
      simp only [Bool.false_eq_true, if_false] at h
      have hcond : ¬ (¬ rec = true ∧ ([] : List String) ≠ []) := by simp
      rw [if_neg hcond] at h
      simp only [mkdirLoop, Except.ok.injEq, Prod.mk.injEq] at h
      obtain ⟨hs2, -⟩ := h
      subst hs2
      exact storeGet_put_self s ⟨mkPath (A ++ [p]), [], .directory, now⟩
    | cons q rest2 =>
      have hassoc : A ++ p :: q :: rest2 = (A ++ [p]) ++ q :: rest2 := by simp
      have hqne : q ≠ "" := (hgood q (by simp)).1
      have hne2 : mkPath (A ++ [p]) ≠ mkPath (A ++ p :: q :: rest2) := by
        rw [hassoc]
        exact mkPath_ne_extend hqne rest2
      by_cases hex : existsPath s (mkPath (A ++ [p])) = true
      · rw [if_pos hex] at h
        have := ih (A ++ [p]) s evs s2 evs2 (by rw [← hassoc]; exact hgood) (by simp)
          (by rw [← hassoc]; exact hnone)
          (by rw [joinCur, if_neg (by simp)]; exact h)
        rw [hassoc]
        exact this
      · rw [if_neg hex] at h
        by_cases hrec : ¬ rec = true ∧ (q :: rest2) ≠ []
        · rw [if_pos hrec] at h
          cases h
        · rw [if_neg hrec] at h
          have hnone2 : storeGet (storePut s ⟨mkPath (A ++ [p]), [], .directory, now⟩)
              (mkPath (A ++ p :: q :: rest2)) = none := by
            rw [storeGet_put_ne s _ (Ne.symm hne2)]
            exact hnone
          have := ih (A ++ [p]) (storePut s ⟨mkPath (A ++ [p]), [], .directory, now⟩)
            (evs ++ [⟨mkPath (A ++ [p]), .add⟩]) s2 evs2
            (by rw [← hassoc]; exact hgood) (by simp)
            (by rw [← hassoc]; exact hnone2)
            (by rw [joinCur, if_neg (by simp)]; exact h)
          rw [hassoc]
          exact this

theorem mkdir_def (s : Store) (p : String) (rec : Bool) (now : Nat) :
    mkdir s p rec now =
      (if existsPath s (normalizePath p) then
        if rec then
          match stat s (normalizePath p) with
          | .ok st => if st.type = .directory then .ok (s, []) else .error .alreadyExists
          | .error _ => .error .alreadyExists
        else .error .alreadyExists
      else mkdirLoop rec now ((splitOnSlash (normalizePath p)).filter (· ≠ "")) "" s []) := rfl

theorem parts_normalizePath (p : String) :
    (splitOnSlash (normalizePath p)).filter (· ≠ "") = normSegs p := by
  rw [normalizePath_eq p]
  exact parts_mkPath
    (fun x hx => ⟨(goodSegs_normSegs p x hx).1, (goodSegs_normSegs p x hx).2.2.2⟩)

theorem mkdir_ok_stat {s : Store} {p : String} {rec : Bool} {now : Nat}
    {s2 : Store} {evs2 : List FileChangeEvent}
    (h : mkdir s p rec now = .ok (s2, evs2)) :
    ∃ st, stat s2 p = .ok st ∧ st.type = EntryType.directory := by
  rw [mkdir_def] at h
  by_cases hex : existsPath s (normalizePath p) = true
  · rw [if_pos hex] at h
    cases hrec : rec with
    | false =>
      rw [hrec, if_neg (by simp)] at h
      exact Except.noConfusion h
    | true =>
      rw [hrec, if_pos rfl] at h
      cases hst : stat s (normalizePath p) with
      | error e =>
        rw [hst] at h
        exact Except.noConfusion h
      | ok st =>
        rw [hst] at h
        have h2 : (if st.type = EntryType.directory
            then (Except.ok (s, []) : Except FsError (Store × List FileChangeEvent))
            else .error .alreadyExists) = .ok (s2, evs2) := h
        by_cases htype : st.type = EntryType.directory
        · rw [if_pos htype] at h2
          simp only [Except.ok.injEq, Prod.mk.injEq] at h2
          obtain ⟨hs2, -⟩ := h2
          subst hs2
          rw [stat_normalize] at hst
          exact ⟨st, hst, htype⟩
        · rw [if_neg htype] at h2
          exact Except.noConfusion h2
  · rw [if_neg hex] at h
    have hroot : normalizePath p ≠ "/" := by
      intro hr
      apply hex
      rw [existsPath_def, normalizePath_idem, hr]
      simp
    have hBne : normSegs p ≠ [] := by
      intro hB
      apply hroot
      rw [normalizePath_eq p, hB]
      rfl
    have hnone : storeGet s (normalizePath p) = none := by
      cases hg : storeGet s (normalizePath p) with
      | none => rfl
      | some e =>
        exact absurd ((existsPath_iff s (normalizePath p)).mpr
          (Or.inr (by rw [normalizePath_idem, hg]; rfl))) hex
    rw [parts_normalizePath] at h
    have hget := mkdirLoop_creates (normSegs p) [] s [] s2 evs2
      (by simpa using goodSegs_normSegs p) hBne
      (by rw [List.nil_append, ← normalizePath_eq p]; exact hnone)
      (by rw [joinCur, if_pos rfl]; exact h)
    rw [List.nil_append, ← normalizePath_eq p] at hget
    refine ⟨⟨normalizePath p, .directory, none⟩, ?_, rfl⟩
    rw [stat_def, hget]
    rfl

theorem mkdirLoop_missing {now : Nat} :
    ∀ (B A : List String) (s : Store) (evs : List FileChangeEvent),
      GoodSegs (A ++ B) →
      (∃ k, k + 1 < B.length ∧ storeGet s (mkPath (A ++ B.take (k + 1))) = none) →
      mkdirLoop false now B (joinCur A) s evs = .error .notFound := by
  intro B
  induction B with
  | nil =>
    intro A s evs _ hk
    obtain ⟨k, hk1, -⟩ := hk
    simp at hk1
  | cons p rest ih =>
    intro A s evs hgood hk
    obtain ⟨k, hk1, hk2⟩ := hk
    simp only [mkdirLoop, joinCur_append]
    have hrestne : rest ≠ [] := by
      intro hr
      rw [hr] at hk1
      simp at hk1
    have hpgoodlist : GoodSegs (A ++ [p]) := by
      intro x hx
      apply hgood
      rcases List.mem_append.mp hx with hx | hx
      · exact List.mem_append.mpr (Or.inl hx)
      · rcases List.mem_singleton.mp hx with rfl
        simp
    by_cases hex : existsPath s (mkPath (A ++ [p])) = true
    · rw [if_pos hex]
      cases k with
      | zero =>
        exfalso
        have ht : (p :: rest).take 1 = [p] := rfl
        rw [ht] at hk2
        rw [existsPath_mkPath hpgoodlist (by simp) s, hk2] at hex
        exact Bool.noConfusion hex
      | succ k2 =>
        have hjc : mkPath (A ++ [p]) = joinCur (A ++ [p]) := by
          rw [joinCur, if_neg (by simp)]
        rw [hjc]
        apply ih (A ++ [p]) s evs
          (by rw [show (A ++ [p]) ++ rest = A ++ p :: rest by simp]; exact hgood)
        refine ⟨k2, ?_, ?_⟩
        · simp only [List.length_cons] at hk1
          omega
        · have ht : A ++ (p :: rest).take (k2 + 2) = (A ++ [p]) ++ rest.take (k2 + 1) := by
            rw [List.take_succ_cons]
            simp
          rw [← ht]
          exact hk2
    · rw [if_neg hex, if_pos ⟨by simp, hrestne⟩]

/-- C7: mkdir semantics.  (i) after a successful `mkdir(p, true)`, a second
`mkdir(p, true)` succeeds as a no-op: same store (hence no duplicate
entries), no events; (ii) after a successful `mkdir(p, false)`, a second
`mkdir(p, false)` fails `AlreadyExists`; (iii) whenever the exact normalized
path holds an entry that is not a directory, mkdir fails `AlreadyExists`
regardless of `recursive`; (iv) with `recursive = false`, a missing
intermediate ancestor segment (any strict prefix of the resolved segments
having no entry while the full path does not exist) fails `NotFound`. -/
theorem C7_mkdir_semantics :
    (∀ s p now1 now2 s1 ev1, mkdir s p true now1 = .ok (s1, ev1) →
      mkdir s1 p true now2 = .ok (s1, [])) ∧
    (∀ s p now1 now2 s1 ev1, mkdir s p false now1 = .ok (s1, ev1) →
      mkdir s1 p false now2 = .error .alreadyExists) ∧
    (∀ s p rec now e, storeGet s (normalizePath p) = some e →
      e.type ≠ EntryType.directory → mkdir s p rec now = .error .alreadyExists) ∧
    (∀ s p now, (∃ k, k + 1 < (normSegs p).length ∧
        storeGet s (mkPath ((normSegs p).take (k + 1))) = none) →
      existsPath s (normalizePath p) = false →
      mkdir s p false now = .error .notFound) := by
  have hexists_of_stat : ∀ (s1 : Store) (p : String) (st : FileSystemNode),
      stat s1 p = .ok st → existsPath s1 (normalizePath p) = true := by
    intro s1 p st hstat
    rw [existsPath_def]
    by_cases hr : normalizePath (normalizePath p) = "/"
    · rw [if_pos hr]
    · rw [if_neg hr, stat_normalize, hstat]
  refine ⟨?_, ?_, ?_, ?_⟩
  · intro s p now1 now2 s1 ev1 h
    obtain ⟨st, hstat, htype⟩ := mkdir_ok_stat h
    rw [mkdir_def, if_pos (hexists_of_stat s1 p st hstat), if_pos rfl,
      stat_normalize, hstat]
    simp [htype]
  · intro s p now1 now2 s1 ev1 h
    obtain ⟨st, hstat, -⟩ := mkdir_ok_stat h
    rw [mkdir_def, if_pos (hexists_of_stat s1 p st hstat), if_neg (by simp)]
  · intro s p rec now e hsome htype
    have hex : existsPath s (normalizePath p) = true :=
      (existsPath_iff s (normalizePath p)).mpr
        (Or.inr (by rw [normalizePath_idem, hsome]; rfl))
    rw [mkdir_def, if_pos hex]
    cases rec with
    | false => rw [if_neg (by simp)]
    | true =>
      rw [if_pos rfl]
      have hstat : stat s (normalizePath p) = .ok ⟨normalizePath p, e.type,
          if e.type = .file then some e.content else none⟩ := by
        rw [stat_def, normalizePath_idem, hsome]
      rw [hstat]
      simp [htype]
  · intro s p now hk hex
    rw [mkdir_def, if_neg (by rw [hex]; simp), parts_normalizePath]
    have h2 := @mkdirLoop_missing now (normSegs p) [] s []
      (by simpa using goodSegs_normSegs p) (by simpa using hk)
    rw [joinCur, if_pos rfl] at h2
    exact h2

/-- C7 witness: the four parts at concrete stores — a repeated recursive
mkdir is a no-op, a repeated non-recursive mkdir fails `AlreadyExists`, mkdir
on a file path fails `AlreadyExists`, and a missing intermediate with
`recursive = false` fails `NotFound`. -/
theorem C7_mkdir_semantics_witness :
    mkdir [⟨"/", [], EntryType.directory, 0⟩, ⟨"/x", [], EntryType.directory, 1⟩]
      "/x" true 2 =
      .ok ([⟨"/", [], EntryType.directory, 0⟩, ⟨"/x", [], EntryType.directory, 1⟩], []) ∧
    mkdir [⟨"/", [], EntryType.directory, 0⟩, ⟨"/x", [], EntryType.directory, 1⟩]
      "/x" false 2 = .error .alreadyExists ∧
    mkdir [⟨"/", [], EntryType.directory, 0⟩, ⟨"/f", [1], EntryType.file, 1⟩]
      "/f" true 2 = .error .alreadyExists ∧
    mkdir [⟨"/", [], EntryType.directory, 0⟩] "/a/b" false 2 = .error .notFound :=
  ⟨C7_mkdir_semantics.1 [⟨"/", [], EntryType.directory, 0⟩] "/x" 1 2
      [⟨"/", [], EntryType.directory, 0⟩, ⟨"/x", [], EntryType.directory, 1⟩]
      [⟨"/x", ChangeType.add⟩] (by decide),
   C7_mkdir_semantics.2.1 [⟨"/", [], EntryType.directory, 0⟩] "/x" 1 2
      [⟨"/", [], EntryType.directory, 0⟩, ⟨"/x", [], EntryType.directory, 1⟩]
      [⟨"/x", ChangeType.add⟩] (by decide),
   C7_mkdir_semantics.2.2.1 [⟨"/", [], EntryType.directory, 0⟩, ⟨"/f", [1], EntryType.file, 1⟩]
      "/f" true 2 ⟨"/f", [1], EntryType.file, 1⟩ (by decide) (by decide),
   C7_mkdir_semantics.2.2.2 [⟨"/", [], EntryType.directory, 0⟩] "/a/b" 2
      ⟨0, by decide, by decide⟩ (by decide)⟩

/-! ## readdir claim (C9) -/

theorem collectChildren_fold_mem (n : String) :
    ∀ (keys : List String) (acc : List String) (y : String),
      (y ∈ keys.foldl
        (fun acc k =>
          if childCond n k then
            (if childName n k ∈ acc then acc else acc ++ [childName n k])
          else acc) acc) ↔
      (y ∈ acc ∨ ∃ k ∈ keys, childCond n k = true ∧ y = childName n k) := by
  intro keys
  induction keys with
  | nil => intro acc y; simp
  | cons k keys ih =>
    intro acc y
    rw [List.foldl_cons]
    by_cases hc : childCond n k = true
    · rw [if_pos hc]
      by_cases hm : childName n k ∈ acc
      · rw [if_pos hm, ih]
        constructor
        · rintro (hy | hy)
          · exact Or.inl hy
          · exact Or.inr (by obtain ⟨k2, hk2, h3, h4⟩ := hy; exact ⟨k2, by simp [hk2], h3, h4⟩)
        · rintro (hy | ⟨k2, hk2, h3, h4⟩)
          · exact Or.inl hy
          · rcases List.mem_cons.mp hk2 with rfl | hk2
            · exact Or.inl (h4 ▸ hm)
            · exact Or.inr ⟨k2, hk2, h3, h4⟩
      · rw [if_neg hm, ih]
        constructor
        · rintro (hy | hy)
          · rcases List.mem_append.mp hy with hy | hy
            · exact Or.inl hy
            · rcases List.mem_singleton.mp hy with rfl
              exact Or.inr ⟨k, by simp, hc, rfl⟩
          · exact Or.inr (by obtain ⟨k2, hk2, h3, h4⟩ := hy; exact ⟨k2, by simp [hk2], h3, h4⟩)
        · rintro (hy | ⟨k2, hk2, h3, h4⟩)
          · exact Or.inl (List.mem_append.mpr (Or.inl hy))
          · rcases List.mem_cons.mp hk2 with rfl | hk2
            · exact Or.inl (List.mem_append.mpr (Or.inr (by simp [h4])))
            · exact Or.inr ⟨k2, hk2, h3, h4⟩
    · rw [if_neg hc, ih]
      constructor
      · rintro (hy | hy)
        · exact Or.inl hy
        · exact Or.inr (by obtain ⟨k2, hk2, h3, h4⟩ := hy; exact ⟨k2, by simp [hk2], h3, h4⟩)
      · rintro (hy | ⟨k2, hk2, h3, h4⟩)
        · exact Or.inl hy
        · rcases List.mem_cons.mp hk2 with rfl | hk2
          · exact absurd h3 hc
          · exact Or.inr ⟨k2, hk2, h3, h4⟩

theorem collectChildren_mem (s : Store) (n : String) (y : String) :
    y ∈ collectChildren s n ↔
      ∃ k ∈ storeKeys s, childCond n k = true ∧ y = childName n k := by
  rw [collectChildren, collectChildren_fold_mem]
  simp

theorem collectChildren_fold_nodup (n : String) :
    ∀ (keys : List String) (acc : List String), acc.Nodup →
      (keys.foldl
        (fun acc k =>
          if childCond n k then
            (if childName n k ∈ acc then acc else acc ++ [childName n k])
          else acc) acc).Nodup := by
  intro keys
  induction keys with
  | nil => intro acc h; exact h
  | cons k keys ih =>
    intro acc h
    rw [List.foldl_cons]
    by_cases hc : childCond n k = true
    · rw [if_pos hc]
      by_cases hm : childName n k ∈ acc
      · rw [if_pos hm]; exact ih acc h
      · rw [if_neg hm]
        refine ih _ ?_
        rw [← List.concat_eq_append]
        exact List.Nodup.concat hm h
    · rw [if_neg hc]; exact ih acc h

theorem collectChildren_nodup (s : Store) (n : String) : (collectChildren s n).Nodup :=
  collectChildren_fold_nodup n (storeKeys s) [] List.nodup_nil

theorem findIdx?_none_of_not_mem {l : List Char} (h : '/' ∉ l) :
    l.findIdx? (fun c => c = '/') = none := by
  induction l with
  | nil => rfl
  | cons c rest ih =>
    have hc : ¬ c = '/' := fun hcc => h (hcc ▸ List.mem_cons_self c rest)
    have hr : '/' ∉ rest := fun hm => h (List.mem_cons_of_mem c hm)
    rw [List.findIdx?_cons, if_neg (by simp [hc])]
    have := ih hr
    rw [List.findIdx?_succ, this]
    rfl

theorem findIdx?_first_slash {x : List Char} (hx : '/' ∉ x) (r : List Char) :
    (x ++ '/' :: r).findIdx? (fun c => c = '/') = some x.length := by
  induction x with
  | nil => rw [List.nil_append, List.findIdx?_cons, if_pos (by simp)]; rfl
  | cons c rest ih =>
    have hc : ¬ c = '/' := fun hcc => hx (hcc ▸ List.mem_cons_self c rest)
    have hr : '/' ∉ rest := fun hm => hx (List.mem_cons_of_mem c hm)
    rw [List.cons_append, List.findIdx?_cons, if_neg (by simp [hc]),
      List.findIdx?_succ, ih hr]
    rfl

theorem first_slash_decomp (l : List Char) :
    '/' ∉ l ∨ ∃ x r, l = x ++ '/' :: r ∧ '/' ∉ x := by
  induction l with
  | nil => exact Or.inl (by simp)
  | cons c rest ih =>
    by_cases hc : c = '/'
    · subst hc
      exact Or.inr ⟨[], rest, rfl, by simp⟩
    · rcases ih with h | ⟨x, r, rfl, hx⟩
      · exact Or.inl (by
          intro hm
          rcases List.mem_cons.mp hm with h2 | h2
          · exact hc h2.symm
          · exact h h2)
      · refine Or.inr ⟨c :: x, r, rfl, ?_⟩
        intro hm
        rcases List.mem_cons.mp hm with h2 | h2
        · exact hc h2.symm
        · exact hx h2

theorem childName_first_segment {n k : String}
    (h : strStartsWith k (childPrefix n) = true) :
    '/' ∉ (childName n k).data ∧
    ∃ r, k.data = (childPrefix n).data ++ (childName n k).data ++ r ∧
      (r = [] ∨ ∃ r2, r = '/' :: r2) := by
  have hpref : (childPrefix n).data <+: k.data := by
    rw [strStartsWith] at h
    exact List.isPrefixOf_iff_prefix.mp h
  obtain ⟨rel, hrel⟩ := hpref
  have hdrop : (strDrop k (strLen (childPrefix n))).data = rel := by
    rw [strDrop, strLen, ← hrel]
    simp
  rcases first_slash_decomp rel with hns | ⟨x, r, hxr, hx⟩
  · have hname : childName n k = strDrop k (strLen (childPrefix n)) := by
      rw [childName]
      rw [hdrop, findIdx?_none_of_not_mem hns]
    rw [hname, hdrop]
    exact ⟨hns, [], by rw [← hrel]; simp, Or.inl rfl⟩
  · have hname : childName n k = strTake (strDrop k (strLen (childPrefix n))) x.length := by
      rw [childName]
      rw [hdrop, hxr, findIdx?_first_slash hx r]
    have htake : (strTake (strDrop k (strLen (childPrefix n))) x.length).data = x := by
      rw [strTake, hdrop, hxr]
      simp [List.take_left]
    rw [hname, htake]
    refine ⟨hx, '/' :: r, ?_, Or.inr ⟨r, rfl⟩⟩
    rw [← hrel, hxr]
    simp

theorem readdir_def (s : Store) (p : String) : readdir s p =
    (match storeGet s (normalizePath p) with
     | none => .error .notFound
     | some e =>
       if e.type ≠ .directory then .error .notADirectory
       else .ok (List.insertionSort (· ≤ ·) (collectChildren s (normalizePath p)))) := rfl

/-- C9: a successful `readdir` returns a lexicographically sorted,
duplicate-free list containing exactly the names derived by scanning every
stored key that extends the directory's prefix and taking its first path
segment past the prefix (the extracted name is separator-free, and the key
is exactly prefix ++ name, or prefix ++ name followed by a deeper
`/`-suffix); concretely, on a fresh store after `mkdir('/a/b', true)` and
`writeFile('/a/b/c.txt', 'x')`, `readdir('/')` is exactly `['a']` and
`readdir('/a')` exactly `['b']`. -/
theorem C9_readdir_sorted_scan :
    (∀ (s : Store) (p : String) (l : List String), readdir s p = .ok l →
      l.Sorted (· ≤ ·) ∧ l.Nodup ∧
      (∀ y, y ∈ l ↔ ∃ k ∈ storeKeys s,
        childCond (normalizePath p) k = true ∧ y = childName (normalizePath p) k) ∧
      (∀ k, strStartsWith k (childPrefix (normalizePath p)) = true →
        '/' ∉ (childName (normalizePath p) k).data ∧
        ∃ r, k.data = (childPrefix (normalizePath p)).data ++
          (childName (normalizePath p) k).data ++ r ∧
          (r = [] ∨ ∃ r2, r = '/' :: r2))) ∧
    (mkdir (initFS [] 0) "/a/b" true 1 =
      .ok ([⟨"/", [], EntryType.directory, 0⟩, ⟨"/a", [], EntryType.directory, 1⟩,
            ⟨"/a/b", [], EntryType.directory, 1⟩],
           [⟨"/a", ChangeType.add⟩, ⟨"/a/b", ChangeType.add⟩]) ∧
     writeFile [⟨"/", [], EntryType.directory, 0⟩, ⟨"/a", [], EntryType.directory, 1⟩,
        ⟨"/a/b", [], EntryType.directory, 1⟩] "/a/b/c.txt" [120] 2 =
      .ok ([⟨"/", [], EntryType.directory, 0⟩, ⟨"/a", [], EntryType.directory, 1⟩,
            ⟨"/a/b", [], EntryType.directory, 1⟩, ⟨"/a/b/c.txt", [120], EntryType.file, 2⟩],
           [⟨"/a/b/c.txt", ChangeType.change⟩]) ∧
     readdir [⟨"/", [], EntryType.directory, 0⟩, ⟨"/a", [], EntryType.directory, 1⟩,
        ⟨"/a/b", [], EntryType.directory, 1⟩, ⟨"/a/b/c.txt", [120], EntryType.file, 2⟩]
       "/" = .ok ["a"] ∧
     readdir [⟨"/", [], EntryType.directory, 0⟩, ⟨"/a", [], EntryType.directory, 1⟩,
        ⟨"/a/b", [], EntryType.directory, 1⟩, ⟨"/a/b/c.txt", [120], EntryType.file, 2⟩]
       "/a" = .ok ["b"]) := by
  constructor
  · intro s p l h
    rw [readdir_def] at h
    cases hg : storeGet s (normalizePath p) with
    | none =>
      rw [hg] at h
      exact Except.noConfusion h
    | some e =>
      rw [hg] at h
      have h2 : (if e.type ≠ EntryType.directory
          then (Except.error FsError.notADirectory : Except FsError (List String))
          else .ok (List.insertionSort (· ≤ ·)
            (collectChildren s (normalizePath p)))) = .ok l := h
      by_cases htype : e.type = EntryType.directory
      · rw [if_neg (by simp [htype])] at h2
        have hl : List.insertionSort (· ≤ ·) (collectChildren s (normalizePath p)) = l :=
          Except.ok.inj h2
        subst hl
        refine ⟨List.sorted_insertionSort _ _, ?_, ?_, ?_⟩
        · exact (List.perm_insertionSort _ _).nodup_iff.mpr
            (collectChildren_nodup s (normalizePath p))
        · intro y
          rw [(List.perm_insertionSort (· ≤ ·)
            (collectChildren s (normalizePath p))).mem_iff]
          exact collectChildren_mem s (normalizePath p) y
        · intro k hk
          exact childName_first_segment hk
      · rw [if_pos (by simp [htype])] at h2
        exact Except.noConfusion h2
  · refine ⟨by decide, by decide, by decide, by decide⟩

/-- C9 witness: the general part applied to the concrete store of the
scenario, at `readdir('/') = ['a']`. -/
theorem C9_readdir_sorted_scan_witness :
    (["a"] : List String).Sorted (· ≤ ·) ∧ (["a"] : List String).Nodup ∧
    (∀ y, y ∈ (["a"] : List String) ↔
      ∃ k ∈ storeKeys [⟨"/", [], EntryType.directory, 0⟩,
          ⟨"/a", [], EntryType.directory, 1⟩, ⟨"/a/b", [], EntryType.directory, 1⟩,
          ⟨"/a/b/c.txt", [120], EntryType.file, 2⟩],
        childCond (normalizePath "/") k = true ∧ y = childName (normalizePath "/") k) ∧
    (∀ k, strStartsWith k (childPrefix (normalizePath "/")) = true →
      '/' ∉ (childName (normalizePath "/") k).data ∧
      ∃ r, k.data = (childPrefix (normalizePath "/")).data ++
        (childName (normalizePath "/") k).data ++ r ∧
        (r = [] ∨ ∃ r2, r = '/' :: r2)) :=
  C9_readdir_sorted_scan.1
    [⟨"/", [], EntryType.directory, 0⟩, ⟨"/a", [], EntryType.directory, 1⟩,
     ⟨"/a/b", [], EntryType.directory, 1⟩, ⟨"/a/b/c.txt", [120], EntryType.file, 2⟩]
    "/" ["a"] (by decide)

/-! ## watch claim (C6) -/

theorem slashfree_append_inj {x : List Char} (hx : '/' ∉ x) :
    ∀ {y : List Char}, '/' ∉ y → ∀ {r1 r2 : List Char},
      x ++ '/' :: r1 = y ++ '/' :: r2 → x = y ∧ r1 = r2 := by
  induction x with
  | nil =>
    intro y hy r1 r2 h
    cases y with
    | nil =>
      simp only [List.nil_append, List.cons.injEq] at h
      exact ⟨rfl, h.2⟩
    | cons d y2 =>
      simp only [List.nil_append, List.cons_append, List.cons.injEq] at h
      exact absurd (h.1 ▸ List.mem_cons_self d y2) hy
  | cons c x2 ih =>
    intro y hy r1 r2 h
    cases y with
    | nil =>
      simp only [List.cons_append, List.nil_append, List.cons.injEq] at h
      exact absurd (h.1.symm ▸ List.mem_cons_self c x2) hx
    | cons d y2 =>
      simp only [List.cons_append, List.cons.injEq] at h
      obtain ⟨hcd, h2⟩ := h
      have hx2 : '/' ∉ x2 := fun hm => hx (List.mem_cons_of_mem c hm)
      have hy2 : '/' ∉ y2 := fun hm => hy (List.mem_cons_of_mem d hm)
      obtain ⟨he, hr⟩ := ih hx2 hy2 h2
      exact ⟨by rw [hcd, he], hr⟩

theorem intercalateSlash_inj :
    ∀ {A B : List String}, (∀ x ∈ A, x ≠ "" ∧ '/' ∉ x.data) →
      (∀ x ∈ B, x ≠ "" ∧ '/' ∉ x.data) →
      intercalateSlash A = intercalateSlash B → A = B := by
  intro A
  induction A with
  | nil =>
    intro B _ hB h
    cases B with
    | nil => rfl
    | cons b B2 =>
      exfalso
      have hbne : b.data ≠ [] := data_ne_nil_of_ne_empty (hB b (by simp)).1
      cases B2 with
      | nil => exact hbne (by simpa [intercalateSlash] using h.symm)
      | cons b2 B3 =>
        have : b.data ++ '/' :: intercalateSlash (b2 :: B3) = [] := h.symm
        simp at this
  | cons a A2 ih =>
    intro B hA hB h
    cases B with
    | nil =>
      exfalso
      have hane : a.data ≠ [] := data_ne_nil_of_ne_empty (hA a (by simp)).1
      cases A2 with
      | nil => exact hane (by simpa [intercalateSlash] using h)
      | cons a2 A3 =>
        have : a.data ++ '/' :: intercalateSlash (a2 :: A3) = [] := h
        simp at this
    | cons b B2 =>
      have ha := hA a (by simp)
      have hb := hB b (by simp)
      cases A2 with
      | nil =>
        cases B2 with
        | nil =>
          have : a.data = b.data := h
          rw [String.ext this]
        | cons b2 B3 =>
          exfalso
          have h2 : a.data = b.data ++ '/' :: intercalateSlash (b2 :: B3) := h
          exact ha.2 (h2 ▸ List.mem_append.mpr (Or.inr (List.mem_cons_self _ _)))
      | cons a2 A3 =>
        cases B2 with
        | nil =>
          exfalso
          have h2 : a.data ++ '/' :: intercalateSlash (a2 :: A3) = b.data := h
          exact hb.2 (h2 ▸ List.mem_append.mpr (Or.inr (List.mem_cons_self _ _)))
        | cons b2 B3 =>
          have h2 : a.data ++ '/' :: intercalateSlash (a2 :: A3) =
              b.data ++ '/' :: intercalateSlash (b2 :: B3) := h
          obtain ⟨he, hr⟩ := slashfree_append_inj ha.2 hb.2 h2
          have hrest := ih (fun x hx => hA x (List.mem_cons_of_mem a hx))
            (fun x hx => hB x (List.mem_cons_of_mem b hx)) hr
          rw [String.ext he, hrest]

theorem mkPath_inj {A B : List String} (hA : ∀ x ∈ A, x ≠ "" ∧ '/' ∉ x.data)
    (hB : ∀ x ∈ B, x ≠ "" ∧ '/' ∉ x.data) (h : mkPath A = mkPath B) : A = B := by
  have h2 : '/' :: intercalateSlash A = '/' :: intercalateSlash B := congrArg String.data h
  exact intercalateSlash_inj hA hB (List.cons.injEq _ _ _ _ ▸ h2).2

theorem inter_prefix_decomp :
    ∀ (wL : List String), (∀ x ∈ wL, x ≠ "" ∧ '/' ∉ x.data) → wL ≠ [] →
      ∀ (pL : List String), (∀ x ∈ pL, x ≠ "" ∧ '/' ∉ x.data) →
      ∀ t, intercalateSlash pL = intercalateSlash wL ++ '/' :: t →
      ∃ K, K ≠ [] ∧ pL = wL ++ K ∧ intercalateSlash K = t := by
  intro wL
  induction wL with
  | nil => intro _ h; cases h rfl
  | cons x wL2 ih =>
    intro hgood _ pL hpgood t h
    cases pL with
    | nil =>
      exfalso
      have h2 : ([] : List Char) = intercalateSlash (x :: wL2) ++ '/' :: t := h
      simp at h2
    | cons y pL2 =>
      have hy := hpgood y (by simp)
      have hxg := hgood x (by simp)
      cases wL2 with
      | nil =>
        have h2 : intercalateSlash (y :: pL2) = x.data ++ '/' :: t := h
        cases pL2 with
        | nil =>
          exfalso
          have h3 : y.data = x.data ++ '/' :: t := h2
          exact hy.2 (h3 ▸ List.mem_append.mpr (Or.inr (List.mem_cons_self _ _)))
        | cons y2 pL3 =>
          have h3 : y.data ++ '/' :: intercalateSlash (y2 :: pL3) = x.data ++ '/' :: t := h2
          obtain ⟨he, hr⟩ := slashfree_append_inj hy.2 hxg.2 h3
          exact ⟨y2 :: pL3, by simp, by rw [String.ext he]; rfl, hr⟩
      | cons x2 wL3 =>
        have h2 : intercalateSlash (y :: pL2) =
            x.data ++ '/' :: (intercalateSlash (x2 :: wL3) ++ '/' :: t) := by
          have h3 : intercalateSlash (x :: x2 :: wL3) ++ '/' :: t =
              x.data ++ '/' :: (intercalateSlash (x2 :: wL3) ++ '/' :: t) := by
            show (x.data ++ '/' :: intercalateSlash (x2 :: wL3)) ++ '/' :: t = _
            simp
          rw [h, h3]
        cases pL2 with
        | nil =>
          exfalso
          have h3 : y.data = x.data ++ '/' :: (intercalateSlash (x2 :: wL3) ++ '/' :: t) := h2
          exact hy.2 (h3 ▸ List.mem_append.mpr (Or.inr (List.mem_cons_self _ _)))
        | cons y2 pL3 =>
          have h3 : y.data ++ '/' :: intercalateSlash (y2 :: pL3) =
              x.data ++ '/' :: (intercalateSlash (x2 :: wL3) ++ '/' :: t) := h2
          obtain ⟨he, hr⟩ := slashfree_append_inj hy.2 hxg.2 h3
          obtain ⟨K, hK1, hK2, hK3⟩ := ih
            (fun z hz => hgood z (List.mem_cons_of_mem x hz)) (by simp)
            (y2 :: pL3) (fun z hz => hpgood z (List.mem_cons_of_mem y hz)) t hr
          refine ⟨K, hK1, ?_, hK3⟩
          rw [String.ext he, hK2]
          rfl

theorem watchHandler_def (w : String) (ev : FileChangeEvent) : watchHandler w ev =
    (if ev.path = normalizePath w ∨ strStartsWith ev.path (normalizePath w ++ "/") then
      some (ev.type,
        if ev.path = normalizePath w then basename ev.path
        else strDrop ev.path (strLen (normalizePath w) + 1))
    else none) := rfl

theorem mkPath_not_startsWith_doubleslash {L : List String}
    (hgood : ∀ x ∈ L, x ≠ "" ∧ '/' ∉ x.data) :
    strStartsWith (mkPath L) ("/" ++ "/") = false := by
  have hpre : ¬ (("/" ++ "/") : String).data <+: (mkPath L).data := by
    rintro ⟨t, ht⟩
    have ht2 : '/' :: '/' :: t = '/' :: intercalateSlash L := ht
    have ht3 : intercalateSlash L = '/' :: t := (List.cons.injEq _ _ _ _ ▸ ht2).2.symm
    cases L with
    | nil => exact List.noConfusion ht3
    | cons x rest =>
      have hx := hgood x (by simp)
      obtain ⟨u, hu⟩ : ∃ u, intercalateSlash (x :: rest) = x.data ++ u := by
        cases rest with
        | nil => exact ⟨[], by simp [intercalateSlash]⟩
        | cons y rest2 => exact ⟨'/' :: intercalateSlash (y :: rest2), rfl⟩
      rw [hu] at ht3
      cases hxd : x.data with
      | nil => exact data_ne_nil_of_ne_empty hx.1 hxd
      | cons c xs =>
        rw [hxd] at ht3
        have hc : c = '/' := (List.cons.injEq _ _ _ _ ▸ ht3).1
        exact hx.2 (hxd ▸ (hc ▸ List.mem_cons_self c xs))
  cases hb : strStartsWith (mkPath L) ("/" ++ "/") with
  | false => rfl
  | true =>
    rw [strStartsWith] at hb
    exact absurd (List.isPrefixOf_iff_prefix.mp hb) hpre

theorem emitterFire_unsubscribe (subs : List (Nat × String)) (wid : Nat)
    (ev : FileChangeEvent) :
    emitterFire (unsubscribe subs wid) ev =
      (emitterFire subs ev).filter (fun x => x.1 ≠ wid) := by
  induction subs with
  | nil => rfl
  | cons sub rest ih =>
    simp only [unsubscribe, emitterFire] at ih ⊢
    by_cases hid : sub.1 = wid
    · rw [List.filter_cons_of_neg (by simp [hid]), List.filterMap_cons]
      cases hw : watchHandler sub.2 ev with
      | none => simpa [hw] using ih
      | some r =>
        simp only [hw, Option.map_some']
        rw [List.filter_cons_of_neg (by simp [hid])]
        exact ih
    · rw [List.filter_cons_of_pos (by simp [hid]), List.filterMap_cons, List.filterMap_cons]
      cases hw : watchHandler sub.2 ev with
      | none => simpa [hw] using ih
      | some r =>
        simp only [hw, Option.map_some']
        rw [List.filter_cons_of_pos (by simp [hid]), ih]

/-- C6 counterexample: a watch on the root `/` does not fire for a write to
`/c.txt`, although `/c.txt` is a descendant of `/` — the handler's filter
compares against `normalizedPath + '/'`, which for the root watch is the
impossible prefix `"//"`. -/
theorem C6_counterexample_root_watch_misses_descendant :
    watchHandler "/" ⟨"/c.txt", ChangeType.change⟩ = none ∧
    descendantOfSpec "/c.txt" "/" = true ∧
    normalizePath "/c.txt" = "/c.txt" := by
  refine ⟨by decide, by decide, by decide⟩

/-- C6 (amended): for a watch whose normalized path is non-root (segments
`wL ≠ []`), the handler fires exactly for events at the watched path itself
or at a path strictly below it (`pL = wL ++ K`, `K ≠ []`), reporting the
basename for the exact match and `K.join('/')` — the path relative to the
watch — for a descendant; for a watch that normalizes to the root `/`, the
handler fires only for events whose (normalized) path is exactly `/`; for
non-root paths the spec's descendant notion coincides with the code's
prefix test; and unsubscribing one watch removes exactly its own deliveries,
leaving every other coexisting watch's deliveries unchanged. -/
theorem C6_watch_scoping :
    (∀ (wL pL : List String) (ty : ChangeType), GoodSegs wL → GoodSegs pL → wL ≠ [] →
      ((watchHandler (mkPath wL) ⟨mkPath pL, ty⟩ ≠ none) ↔
        (pL = wL ∨ ∃ K, K ≠ [] ∧ pL = wL ++ K)) ∧
      (pL = wL → watchHandler (mkPath wL) ⟨mkPath pL, ty⟩ =
        some (ty, basename (mkPath wL))) ∧
      (∀ K, K ≠ [] → pL = wL ++ K →
        watchHandler (mkPath wL) ⟨mkPath pL, ty⟩ =
          some (ty, ⟨intercalateSlash K⟩))) ∧
    (∀ (w q : String) (ev : FileChangeEvent), normalizePath w = "/" →
      ev.path = normalizePath q →
      ((ev.path = "/" → watchHandler w ev = some (ev.type, "")) ∧
       (ev.path ≠ "/" → watchHandler w ev = none))) ∧
    (∀ (p w2 : String), w2 ≠ "/" →
      descendantOfSpec p w2 = strStartsWith p (w2 ++ "/")) ∧
    (∀ (subs : List (Nat × String)) (wid : Nat) (ev : FileChangeEvent),
      emitterFire (unsubscribe subs wid) ev =
        (emitterFire subs ev).filter (fun x => x.1 ≠ wid)) := by
  refine ⟨?_, ?_, ?_, emitterFire_unsubscribe⟩
  · intro wL pL ty hgw hgp hwne
    have weakW : ∀ x ∈ wL, x ≠ "" ∧ '/' ∉ x.data :=
      fun x hx => ⟨(hgw x hx).1, (hgw x hx).2.2.2⟩
    have weakP : ∀ x ∈ pL, x ≠ "" ∧ '/' ∉ x.data :=
      fun x hx => ⟨(hgp x hx).1, (hgp x hx).2.2.2⟩
    have hnw : normalizePath (mkPath wL) = mkPath wL := normalizePath_mkPath hgw
    have hstart_iff : strStartsWith (mkPath pL) (mkPath wL ++ "/") = true ↔
        ∃ K, K ≠ [] ∧ pL = wL ++ K := by
      rw [strStartsWith, List.isPrefixOf_iff_prefix]
      have hdataw : ((mkPath wL ++ "/") : String).data =
          ('/' :: intercalateSlash wL) ++ ['/'] := by
        rw [String.data_append]
        rfl
      constructor
      · intro h
        obtain ⟨t, ht⟩ := h
        rw [hdataw] at ht
        have ht4 : ('/' :: intercalateSlash wL) ++ ['/'] ++ t =
            '/' :: intercalateSlash pL := ht
        have ht3 : intercalateSlash pL = intercalateSlash wL ++ '/' :: t := by
          simp only [List.cons_append, List.append_assoc, List.singleton_append] at ht4
          exact ((List.cons.injEq _ _ _ _ ▸ ht4).2).symm
        obtain ⟨K, hK1, hK2, -⟩ := inter_prefix_decomp wL weakW hwne pL weakP t ht3
        exact ⟨K, hK1, hK2⟩
      · rintro ⟨K, hK1, rfl⟩
        refine ⟨intercalateSlash K, ?_⟩
        rw [hdataw]
        show ('/' :: intercalateSlash wL ++ ['/']) ++ intercalateSlash K =
          '/' :: intercalateSlash (wL ++ K)
        rw [intercalateSlash_append K hwne hK1]
        simp
    have heq_iff : mkPath pL = mkPath wL ↔ pL = wL :=
      ⟨fun h => mkPath_inj weakP weakW h, fun h => by rw [h]⟩
    refine ⟨?_, ?_, ?_⟩
    · constructor
      · intro hne
        by_cases hc : (mkPath pL = mkPath wL ∨
            strStartsWith (mkPath pL) (mkPath wL ++ "/") = true)
        · rcases hc with hc | hc
          · exact Or.inl (heq_iff.mp hc)
          · exact Or.inr (hstart_iff.mp hc)
        · rw [watchHandler_def, hnw] at hne
          exact absurd (if_neg hc) hne
      · intro h
        rw [watchHandler_def, hnw]
        have hc : (mkPath pL = mkPath wL ∨
            strStartsWith (mkPath pL) (mkPath wL ++ "/") = true) := by
          rcases h with h | h
          · exact Or.inl (heq_iff.mpr h)
          · exact Or.inr (hstart_iff.mpr h)
        rw [if_pos hc]
        simp
    · intro h
      subst h
      rw [watchHandler_def, hnw, if_pos (Or.inl rfl), if_pos rfl]
    · intro K hK hpl
      subst hpl
      have hne : mkPath (wL ++ K) ≠ mkPath wL := by
        cases K with
        | nil => cases hK rfl
        | cons x K2 => exact (mkPath_ne_extend (hgp x (by simp)).1 K2).symm
      rw [watchHandler_def, hnw, if_pos (Or.inr (hstart_iff.mpr ⟨K, hK, rfl⟩)),
        if_neg hne]
      have hdrop : strDrop (mkPath (wL ++ K)) (strLen (mkPath wL) + 1) =
          ⟨intercalateSlash K⟩ := by
        apply String.ext
        show (mkPath (wL ++ K)).data.drop (strLen (mkPath wL) + 1) = intercalateSlash K
        have hdata : (mkPath (wL ++ K)).data =
            (('/' :: intercalateSlash wL) ++ ['/']) ++ intercalateSlash K := by
          show '/' :: intercalateSlash (wL ++ K) = _
          rw [intercalateSlash_append K hwne hK]
          simp
        rw [hdata,
          show strLen (mkPath wL) + 1 = (('/' :: intercalateSlash wL) ++ ['/']).length by
            simp [strLen, mkPath],
          List.drop_left]
      rw [hdrop]
  · intro w q ev hw hevq
    have hb : basename "/" = "" := by decide
    constructor
    · intro hev
      rw [watchHandler_def, hw, if_pos (Or.inl hev), if_pos hev, hev, hb]
    · intro hev
      rw [watchHandler_def, hw]
      rw [if_neg ?_]
      rintro (h | h)
      · exact hev h
      · have hns : strStartsWith (normalizePath q) ("/" ++ "/") = false := by
          rw [normalizePath_eq q]
          exact mkPath_not_startsWith_doubleslash
            (fun x hx => ⟨(goodSegs_normSegs q x hx).1, (goodSegs_normSegs q x hx).2.2.2⟩)
        rw [hevq, hns] at h
        exact Bool.noConfusion h
  · intro p w2 hw2
    rw [descendantOfSpec, if_neg hw2]

/-- C6 witness: a watch on `/a` fires for a write below it reporting the
relative name, and unsubscribing watch 1 leaves watch 2's deliveries
untouched. -/
theorem C6_watch_scoping_witness :
    watchHandler (mkPath ["a"]) ⟨mkPath ["a", "b.txt"], ChangeType.change⟩ =
      some (ChangeType.change, ⟨intercalateSlash ["b.txt"]⟩) ∧
    emitterFire (unsubscribe [(1, "/a"), (2, "/b")] 1) ⟨"/b/x", ChangeType.change⟩ =
      (emitterFire [(1, "/a"), (2, "/b")] ⟨"/b/x", ChangeType.change⟩).filter
        (fun x => x.1 ≠ 1) :=
  ⟨(C6_watch_scoping.1 ["a"] ["a", "b.txt"] ChangeType.change
      (by unfold GoodSegs; decide) (by unfold GoodSegs; decide)
      (by decide)).2.2 ["b.txt"] (by decide) (by decide),
   C6_watch_scoping.2.2.2 [(1, "/a"), (2, "/b")] 1 ⟨"/b/x", ChangeType.change⟩⟩
